import Mathlib

/-!
diff-to-html: character-level LCS highlighting

A shallow embedding of `src/main.cpp` and the properties of its algorithmic
core (`html_escape`, `lcs_backtrack`, `render_old_with_deletions`,
`render_new_with_insertions`).

Modelling conventions.

* `std::string` is `List Char`, one `Char` for each `char` of the string;
  `std::vector<std::pair<int,int>>` is `List (Nat × Nat)`;
  `std::vector<std::vector<int>>` is `List (List Nat)`.
* Every subscript (`a[i]`, `dp[i][j]`, `matches[idx]`) and every `substr`
  is checked: an access outside the container makes the whole function
  return `none`.  Results are therefore `Option`s, and the theorems prove
  that the result is `some _`.
* `int`: the casts `(int)a.size()`, `(int)b.size()`, `(int)oldLine.size()`
  and `(int)newLine.size()` are `int_of_size`, the size modulo `2^32` read
  as a signed number.  The table sizes `n+1`, `m+1` are checked: where one
  overflows `int`, or is negative and so no size a vector can have,
  `fill_table` and with it `lcs_backtrack` and the renderers return `none`
  (the source throws in the constructor of the table).  Every other number
  the code computes is an index `≤ n`, `≤ m` or a table entry `≤ min n m`
  (`lcsLen_le_left`, `lcsLen_le_right`) and is held as a natural number.
  For lines shorter than `INT_MAX` the casts are the identity
  (`int_of_size_of_lt`) and the table has `|a|+1` by `|b|+1` cells
  (`fill_table_of_lt`); the properties below are proved in that range, and
  a line of exactly `INT_MAX` characters shows where they stop
  (`fill_table_of_length`).
* `main` is modelled in two parts: the row loop on the two line lists
  (`row_loop`, `main_rows`), and the exit path as a function of `argc` and
  of which streams open (`main`).
* a counting-down `for` loop is a structural recursion on the number of
  iterations left; the `while` loop of the backtrack carries fuel, and
  `lcs_backtrack` supplies `n + m`, which is shown to suffice.
-/

namespace DiffToHtml

/-! ## Escaper (`html_escape`, main.cpp 9-21) -/

/-- One iteration of the `switch` in `html_escape`: what is appended to `out`
for the character `c`. -/
def escape_char (c : Char) : List Char :=
  if c = '&' then "&amp;".data
  else if c = '<' then "&lt;".data
  else if c = '>' then "&gt;".data
  else if c = '"' then "&quot;".data
  else [c]

/-- The function `html_escape`: `out` starts empty and every character of `s`
appends its replacement, in order. -/
def html_escape (s : List Char) : List Char :=
  s.foldl (fun out c => out ++ escape_char c) []

/-! ## Aligner (`lcs_backtrack`, main.cpp 24-39) -/

/-- The largest `int` (32 bits). -/
def INT_MAX : Nat := 2147483647

/-- The cast `(int)s.size()` of a size to the 32-bit `int`: the size modulo
`2^32`, read as a signed number (from `2^31` on, `2^32` less). -/
def int_of_size (x : Nat) : Int :=
  if x % 4294967296 < 2147483648 then ((x % 4294967296 : Nat) : Int)
  else ((x % 4294967296 : Nat) : Int) - 4294967296

/-- Read `dp[i][j]`; `none` when `i` or `j` is outside the table. -/
def dp_get (dp : List (List Nat)) (i j : Nat) : Option Nat :=
  match dp[i]? with
  | none => none
  | some row => row[j]?

/-- Write `dp[i][j] = v`; `none` when `i` or `j` is outside the table. -/
def dp_set (dp : List (List Nat)) (i j v : Nat) : Option (List (List Nat)) :=
  match dp[i]? with
  | none => none
  | some row => if j < row.length then some (dp.set i (row.set j v)) else none

/-- The body of the inner loop (main.cpp 29):
`dp[i][j] = (a[i] == b[j]) ? dp[i+1][j+1] + 1 : max(dp[i+1][j], dp[i][j+1])`. -/
def fill_cell (a b : List Char) (dp : List (List Nat)) (i j : Nat) :
    Option (List (List Nat)) :=
  match a[i]?, b[j]? with
  | some x, some y =>
    if x = y then
      match dp_get dp (i + 1) (j + 1) with
      | some d => dp_set dp i j (d + 1)
      | none => none
    else
      match dp_get dp (i + 1) j, dp_get dp i (j + 1) with
      | some u, some v => dp_set dp i j (max u v)
      | _, _ => none
  | _, _ => none

/-- The inner loop `for (int j = m-1; j >= 0; --j)` for a fixed row `i`;
the numeric argument is the number of iterations left, so `k + 1` runs the
body at `j = k` and goes on with `k`. -/
def fill_row (a b : List Char) (i : Nat) : Nat → List (List Nat) → Option (List (List Nat))
  | 0, dp => some dp
  | k + 1, dp =>
    match fill_cell a b dp i k with
    | some dp1 => fill_row a b i k dp1
    | none => none

/-- The outer loop `for (int i = n-1; i >= 0; --i)`, each iteration running
the inner loop from `j = m-1`. -/
def fill_rows (a b : List Char) (m : Nat) : Nat → List (List Nat) → Option (List (List Nat))
  | 0, dp => some dp
  | k + 1, dp =>
    match fill_row a b k m dp with
    | some dp1 => fill_rows a b m k dp1
    | none => none

/-- The table of `lcs_backtrack` after the fill (main.cpp 25-29), with
`n = (int)a.size()` and `m = (int)b.size()`: `none` when `n+1` or `m+1`
overflows `int`, or is negative and so, converted to the size of a vector,
above every size a vector can have (the constructor throws); else an
`(n+1) × (m+1)` table of zeros, then the two nested loops, which run `n` and
`m` times when these are positive and not at all otherwise. -/
def fill_table (a b : List Char) : Option (List (List Nat)) :=
  if int_of_size a.length = INT_MAX ∨ int_of_size b.length = INT_MAX then none
  else if int_of_size a.length + 1 < 0 ∨ int_of_size b.length + 1 < 0 then none
  else
    fill_rows a b (int_of_size b.length).toNat (int_of_size a.length).toNat
      (List.replicate (int_of_size a.length + 1).toNat
        (List.replicate (int_of_size b.length + 1).toNat 0))

/-- The backtrack loop `while (i < n && j < m)` (main.cpp 33-37), from the
state `(i, j, res)`, for at most `fuel` iterations; `n` and `m` are the
bounds of the loop as natural numbers (`i` and `j` are never negative, so a
negative bound is the bound 0); `none` on an access out of range or when the
fuel ends before the loop condition fails. -/
def backtrack_loop (a b : List Char) (dp : List (List Nat)) (n m : Nat) :
    Nat → Nat → Nat → List (Nat × Nat) → Option (List (Nat × Nat))
  | fuel, i, j, res =>
    if i < n ∧ j < m then
      match fuel with
      | 0 => none
      | fuel + 1 =>
        match a[i]?, b[j]? with
        | some x, some y =>
          if x = y then backtrack_loop a b dp n m fuel (i + 1) (j + 1) (res ++ [(i, j)])
          else
            match dp_get dp (i + 1) j, dp_get dp i (j + 1) with
            | some u, some v =>
              if u ≥ v then backtrack_loop a b dp n m fuel (i + 1) j res
              else backtrack_loop a b dp n m fuel i (j + 1) res
            | _, _ => none
        | _, _ => none
    else some res

/-- The function `lcs_backtrack`: with `n = (int)a.size()` and
`m = (int)b.size()`, fill the table, then backtrack from `i = 0, j = 0` with
an empty result; each iteration advances `i` or `j`, so `n + m` iterations
are enough. -/
def lcs_backtrack (a b : List Char) : Option (List (Nat × Nat)) :=
  match fill_table a b with
  | some dp =>
    backtrack_loop a b dp (int_of_size a.length).toNat (int_of_size b.length).toNat
      ((int_of_size a.length).toNat + (int_of_size b.length).toNat) 0 0 []
  | none => none

/-! ## Line renderer (main.cpp 42-87) -/

/-- The opening marker of a deletion run. -/
def del_open : List Char := "<span class='del'>".data

/-- The opening marker of an insertion run. -/
def ins_open : List Char := "<span class='ins'>".data

/-- The closing marker of a run. -/
def span_close : List Char := "</span>".data

/-- The call `s.substr(pos, len)`: fails when `pos > s.size()`, and clips
`len` to what is left of `s`. -/
def substr (s : List Char) (pos len : Nat) : Option (List Char) :=
  if pos ≤ s.length then some ((s.drop pos).take len) else none

/-- The call `s.substr(pos)`: fails when `pos > s.size()`. -/
def substr_from (s : List Char) (pos : Nat) : Option (List Char) :=
  if pos ≤ s.length then some (s.drop pos) else none

/-- One iteration of the loop of `render_old_with_deletions` (main.cpp
48-56) on the match `mt`, from the state `(out, ia)`. -/
def render_old_step (oldLine : List Char) (st : List Char × Nat) (mt : Nat × Nat) :
    Option (List Char × Nat) :=
  let ma := mt.1
  match (if st.2 < ma then
      (substr oldLine st.2 (ma - st.2)).map
        (fun t => st.1 ++ (del_open ++ html_escape t ++ span_close))
    else some st.1) with
  | none => none
  | some out1 =>
    match oldLine[ma]? with
    | none => none
    | some c => some (out1 ++ html_escape [c], ma + 1)

/-- The loop of `render_old_with_deletions` over `matches[idx]`,
`idx = 0, 1, ...`. -/
def render_old_loop (oldLine : List Char) :
    List (Nat × Nat) → List Char × Nat → Option (List Char × Nat)
  | [], st => some st
  | mt :: rest, st =>
    match render_old_step oldLine st mt with
    | none => none
    | some st1 => render_old_loop oldLine rest st1

/-- The function `render_old_with_deletions`; the tail is guarded by
`ia < (int)oldLine.size()`. -/
def render_old_with_deletions (oldLine newLine : List Char) : Option (List Char) :=
  match lcs_backtrack oldLine newLine with
  | none => none
  | some ms =>
    match render_old_loop oldLine ms ([], 0) with
    | none => none
    | some (out, ia) =>
      if (ia : Int) < int_of_size oldLine.length then
        (substr_from oldLine ia).map
          (fun t => out ++ (del_open ++ html_escape t ++ span_close))
      else some out

/-- One iteration of the loop of `render_new_with_insertions` (main.cpp
72-80) on the match `mt`, from the state `(out, ib)`. -/
def render_new_step (newLine : List Char) (st : List Char × Nat) (mt : Nat × Nat) :
    Option (List Char × Nat) :=
  let mb := mt.2
  match (if st.2 < mb then
      (substr newLine st.2 (mb - st.2)).map
        (fun t => st.1 ++ (ins_open ++ html_escape t ++ span_close))
    else some st.1) with
  | none => none
  | some out1 =>
    match newLine[mb]? with
    | none => none
    | some c => some (out1 ++ html_escape [c], mb + 1)

/-- The loop of `render_new_with_insertions` over `matches[idx]`,
`idx = 0, 1, ...`. -/
def render_new_loop (newLine : List Char) :
    List (Nat × Nat) → List Char × Nat → Option (List Char × Nat)
  | [], st => some st
  | mt :: rest, st =>
    match render_new_step newLine st mt with
    | none => none
    | some st1 => render_new_loop newLine rest st1

/-- The function `render_new_with_insertions`; the tail is guarded by
`ib < (int)newLine.size()`. -/
def render_new_with_insertions (oldLine newLine : List Char) : Option (List Char) :=
  match lcs_backtrack oldLine newLine with
  | none => none
  | some ms =>
    match render_new_loop newLine ms ([], 0) with
    | none => none
    | some (out, ib) =>
      if (ib : Int) < int_of_size newLine.length then
        (substr_from newLine ib).map
          (fun t => out ++ (ins_open ++ html_escape t ++ span_close))
      else some out

/-! ## Rows of the table (`main`, main.cpp 126-155) -/

/-- The four branches of the row loop. -/
inductive RowKind where
  /-- Both lines present and equal (main.cpp 131-135). -/
  | unchanged
  /-- Both lines present and different (main.cpp 136-143). -/
  | changed
  /-- Only the old line is left (main.cpp 144-148). -/
  | old_only
  /-- Only the new line is left (main.cpp 149-153). -/
  | new_only
  deriving DecidableEq

/-- One iteration of the row loop: the branch taken and the values of the
locals `left` and `right` when the row is written. -/
structure Row where
  /-- The branch of the loop that wrote the row. -/
  kind : RowKind
  /-- The local `left`. -/
  left : List Char
  /-- The local `right`. -/
  right : List Char
  deriving DecidableEq

/-- The text the branch writes to `out` for a row. -/
def Row.html (r : Row) : List Char :=
  match r.kind with
  | RowKind.unchanged =>
    "<tr><td>".data ++ r.left ++ "</td><td>".data ++ r.right ++ "</td></tr>\n".data
  | RowKind.changed =>
    "<tr><td class='removed'>".data ++ r.left ++ "</td>".data
      ++ "<td class='added'>".data ++ r.right ++ "</td></tr>\n".data
  | RowKind.old_only =>
    "<tr><td class='removed'>".data ++ r.left ++ "</td><td></td></tr>\n".data
  | RowKind.new_only =>
    "<tr><td></td><td class='added'>".data ++ r.right ++ "</td></tr>\n".data

/-- The row loop `while (i < oldLines.size() || j < newLines.size())` from the
state `(i, j)` with the rows `rows` already written, for at most `fuel`
iterations; `none` on an access out of range, on a failure of a renderer, or
when the fuel ends before the loop condition fails. -/
def row_loop (oldLines newLines : List (List Char)) :
    Nat → Nat → Nat → List Row → Option (List Row)
  | fuel, i, j, rows =>
    if i < oldLines.length ∨ j < newLines.length then
      match fuel with
      | 0 => none
      | fuel + 1 =>
        if i < oldLines.length ∧ j < newLines.length then
          match oldLines[i]?, newLines[j]? with
          | some o, some nw =>
            if o = nw then
              row_loop oldLines newLines fuel (i + 1) (j + 1)
                (rows ++ [⟨RowKind.unchanged, html_escape o, html_escape nw⟩])
            else
              match render_old_with_deletions o nw, render_new_with_insertions o nw with
              | some l, some r =>
                row_loop oldLines newLines fuel (i + 1) (j + 1)
                  (rows ++ [⟨RowKind.changed, l, r⟩])
              | _, _ => none
          | _, _ => none
        else if i < oldLines.length then
          match oldLines[i]? with
          | some o =>
            row_loop oldLines newLines fuel (i + 1) j
              (rows ++ [⟨RowKind.old_only, html_escape o, []⟩])
          | none => none
        else if j < newLines.length then
          match newLines[j]? with
          | some nw =>
            row_loop oldLines newLines fuel i (j + 1)
              (rows ++ [⟨RowKind.new_only, [], html_escape nw⟩])
          | none => none
        else row_loop oldLines newLines fuel i j rows
    else some rows

/-- The rows `main` writes for two line lists: the row loop from
`i = 0, j = 0`; every iteration advances `i` or `j`, so
`oldLines.size() + newLines.size()` iterations are enough. -/
def main_rows (oldLines newLines : List (List Char)) : Option (List Row) :=
  row_loop oldLines newLines (oldLines.length + newLines.length) 0 0 []

/-! ## Entry point (`main`, main.cpp 90-105 and 157-161) -/

/-- What a run of `main` leaves behind. -/
structure Exit where
  /-- The value `main` returns. -/
  status : Nat
  /-- Whether a message was written to `std::cerr`. -/
  cerr : Bool
  /-- Whether `Diff saved to ...` was written to `std::cout`. -/
  cout : Bool
  /-- Whether the document reached the output file. -/
  written : Bool
  deriving DecidableEq

/-- The function `main`, as a function of `argc` and of whether the streams
`f1`, `f2` and `out` open.  The source tests `argc`, `f1.is_open()` and
`f2.is_open()`; it never tests `out`, so what is written to a stream that did
not open is lost and the run goes on to `return 0`. -/
def main (argc : Nat) (f1_open f2_open out_open : Bool) : Exit :=
  if argc ≠ 4 then ⟨1, true, false, false⟩
  else if f1_open = false then ⟨1, true, false, false⟩
  else if f2_open = false then ⟨1, true, false, false⟩
  else ⟨0, false, true, out_open⟩

/-! ## The core functions on the lines that `int` can measure -/

/-- The value of an `int` expression whose mathematical value is `x`; `none`
when `x` is not representable, where the cast or the addition of the source
is not the identity. -/
def to_int (x : Nat) : Option Nat :=
  if x ≤ INT_MAX then some x else none

/-- The function `lcs_backtrack` where the `int` computations of main.cpp
25-26 are exact: the casts `(int)a.size()`, `(int)b.size()` and the table
sizes `n+1`, `m+1`; `none` elsewhere.  Every other `int` of the function is
an index `≤ n`, `≤ m` or a table entry. -/
def lcs_backtrack_int (a b : List Char) : Option (List (Nat × Nat)) :=
  match to_int a.length, to_int b.length with
  | some n, some m =>
    match to_int (n + 1), to_int (m + 1) with
    | some _, some _ => lcs_backtrack a b
    | _, _ => none
  | _, _ => none

/-- The function `render_old_with_deletions` where the `int` computations of
its call of `lcs_backtrack` and its cast `(int)oldLine.size()` are exact;
`none` elsewhere. -/
def render_old_with_deletions_int (oldLine newLine : List Char) : Option (List Char) :=
  match lcs_backtrack_int oldLine newLine, to_int oldLine.length with
  | some _, some _ => render_old_with_deletions oldLine newLine
  | _, _ => none

/-- The function `render_new_with_insertions` where the `int` computations of
its call of `lcs_backtrack` and its cast `(int)newLine.size()` are exact;
`none` elsewhere. -/
def render_new_with_insertions_int (oldLine newLine : List Char) : Option (List Char) :=
  match lcs_backtrack_int oldLine newLine, to_int newLine.length with
  | some _, some _ => render_new_with_insertions oldLine newLine
  | _, _ => none

/-! ## Reference notions used to state the properties -/

/-- Length of a longest common subsequence of `x :: xs` and a second list,
given `f = lcsLen xs`. -/
def lcsLenAux (x : Char) (f : List Char → Nat) : List Char → Nat
  | [] => 0
  | y :: ys => if x = y then f ys + 1 else max (f (y :: ys)) (lcsLenAux x f ys)

/-- Reference length of a longest common subsequence of two lists, by the
usual recursion on the heads. -/
def lcsLen : List Char → List Char → Nat
  | [], _ => 0
  | x :: xs, ys => lcsLenAux x (lcsLen xs) ys

/-- Reference alignment: the recursive description of the backtrack, with
ties advancing the old index. -/
def align : List Char → List Char → List (Nat × Nat)
  | [], _ => []
  | _ :: _, [] => []
  | x :: xs, y :: ys =>
    if x = y then (0, 0) :: (align xs ys).map (fun p => (p.1 + 1, p.2 + 1))
    else if lcsLen xs (y :: ys) ≥ lcsLen (x :: xs) ys then
      (align xs (y :: ys)).map (fun p => (p.1 + 1, p.2))
    else (align (x :: xs) ys).map (fun p => (p.1, p.2 + 1))
termination_by xs ys => xs.length + ys.length

/-- Strict increase of a match in both components. -/
def pair_lt (p q : Nat × Nat) : Prop := p.1 < q.1 ∧ p.2 < q.2

/-- The four entities the escaper produces. -/
def entities : List (List Char) :=
  ["&amp;".data, "&lt;".data, "&gt;".data, "&quot;".data]

/-- The characters of `A` at the old indices of a match list. -/
def matched_old (A : List Char) (r : List (Nat × Nat)) : List Char :=
  r.filterMap (fun p => A[p.1]?)

/-- The characters of `B` at the new indices of a match list. -/
def matched_new (B : List Char) (r : List (Nat × Nat)) : List Char :=
  r.filterMap (fun p => B[p.2]?)

/-- An annotated segment of a rendered line: a plain run or a marked run,
with the text of the line it covers. -/
structure Seg where
  /-- Whether the run is wrapped in a marker. -/
  marked : Bool
  /-- The characters of the line the run covers. -/
  text : List Char

/-- How a segment is written to the output, `tag` being the opening marker
of the side rendered. -/
def Seg.render (tag : List Char) (s : Seg) : List Char :=
  if s.marked then tag ++ html_escape s.text ++ span_close else html_escape s.text

/-- The output for a sequence of segments. -/
def render_segs (tag : List Char) (segs : List Seg) : List Char :=
  segs.flatMap (Seg.render tag)

/-- The text a sequence of segments covers, markers ignored. -/
def seg_texts (segs : List Seg) : List Char :=
  segs.flatMap Seg.text

/-- The segments a render loop emits from position `pos` of the line `ln` for the
matched indices `idxs`, one segment for each `out +=` the source executes:
an unmatched run before each match, the matched character, and the
unmatched tail, which is guarded by `pos < (int)ln.size()`. -/
def segments (ln : List Char) : List Nat → Nat → List Seg
  | [], pos => if (pos : Int) < int_of_size ln.length then [⟨true, ln.drop pos⟩] else []
  | k :: ks, pos =>
    (if pos < k then [⟨true, (ln.drop pos).take (k - pos)⟩] else [])
      ++ ⟨false, (ln[k]?).toList⟩ :: segments ln ks (k + 1)

/-- The segments of the old-side rendering of a pair of lines. -/
def old_segments (oldLine newLine : List Char) : Option (List Seg) :=
  (lcs_backtrack oldLine newLine).map (fun ms => segments oldLine (ms.map Prod.fst) 0)

/-- The segments of the new-side rendering of a pair of lines. -/
def new_segments (oldLine newLine : List Char) : Option (List Seg) :=
  (lcs_backtrack oldLine newLine).map (fun ms => segments newLine (ms.map Prod.snd) 0)

/-- The shape the two render functions share, on the indices `idxs` into
the line `ln`: the loop from the state `(out, pos)`, then the tail. -/
def render_side (tag ln : List Char) : List Nat → List Char × Nat → Option (List Char)
  | [], st =>
    if (st.2 : Int) < int_of_size ln.length then
      (substr_from ln st.2).map (fun t => st.1 ++ (tag ++ html_escape t ++ span_close))
    else some st.1
  | k :: ks, st =>
    match (if st.2 < k then
        (substr ln st.2 (k - st.2)).map
          (fun t => st.1 ++ (tag ++ html_escape t ++ span_close))
      else some st.1) with
    | none => none
    | some out1 =>
      match ln[k]? with
      | none => none
      | some c => render_side tag ln ks (out1 ++ html_escape [c], k + 1)

/-- The marker strings of the old-side rendering. -/
def old_markers : List (List Char) := [del_open, span_close]

/-- The marker strings of the new-side rendering. -/
def new_markers : List (List Char) := [ins_open, span_close]

/-- Delete every occurrence of a marker string of `mks`, scanning from the
left; `skip` counts the characters of a marker that are still to be dropped. -/
def strip_markers (mks : List (List Char)) : Nat → List Char → List Char
  | _, [] => []
  | skip + 1, _ :: cs => strip_markers mks skip cs
  | 0, c :: cs =>
    match mks.find? (fun mk => decide (mk = (c :: cs).take mk.length)) with
    | some mk => strip_markers mks (mk.length - 1) cs
    | none => c :: strip_markers mks 0 cs

/-- No closing `>` is directly followed by an opening `<`. -/
def no_gt_lt (x y : Char) : Prop := ¬ (x = '>' ∧ y = '<')

/-- Invariant of the table fill: every cell of the `(n+1) × (m+1)` table can
be read, and every cell that `P` selects holds the reference length for the
two suffixes. -/
def TableInv (a b : List Char) (dp : List (List Nat)) (P : Nat → Nat → Prop) : Prop :=
  ∀ i j, i ≤ a.length → j ≤ b.length →
    (∃ v, dp_get dp i j = some v) ∧
      (P i j → dp_get dp i j = some (lcsLen (a.drop i) (b.drop j)))

/-- The rows for two line lists by recursion on the lists: line `k` of one
side meets line `k` of the other, and what is left of the longer side
follows. -/
def rows_from : List (List Char) → List (List Char) → Option (List Row)
  | [], [] => some []
  | o :: os, [] =>
    (rows_from os []).map (fun rs => ⟨RowKind.old_only, html_escape o, []⟩ :: rs)
  | [], nw :: ns =>
    (rows_from [] ns).map (fun rs => ⟨RowKind.new_only, [], html_escape nw⟩ :: rs)
  | o :: os, nw :: ns =>
    if o = nw then
      (rows_from os ns).map
        (fun rs => ⟨RowKind.unchanged, html_escape o, html_escape nw⟩ :: rs)
    else
      match render_old_with_deletions o nw, render_new_with_insertions o nw with
      | some l, some r => (rows_from os ns).map (fun rs => ⟨RowKind.changed, l, r⟩ :: rs)
      | _, _ => none

/-- The row built from line `k` of each side, where the side has one. -/
def row_at : Option (List Char) → Option (List Char) → Option Row
  | some o, some nw =>
    if o = nw then some ⟨RowKind.unchanged, html_escape o, html_escape nw⟩
    else
      match render_old_with_deletions o nw, render_new_with_insertions o nw with
      | some l, some r => some ⟨RowKind.changed, l, r⟩
      | _, _ => none
  | some o, none => some ⟨RowKind.old_only, html_escape o, []⟩
  | none, some nw => some ⟨RowKind.new_only, [], html_escape nw⟩
  | none, none => none

/-- The number of characters inside the marked runs of a segment sequence. -/
def marked_count (segs : List Seg) : Nat :=
  ((segs.filter (fun s => s.marked)).map (fun s => s.text.length)).sum

/-- The text of the plain runs of a segment sequence, in order. -/
def plain_text (segs : List Seg) : List Char :=
  (segs.filter (fun s => !s.marked)).flatMap Seg.text

/-- The output of the plain runs of a segment sequence, in order. -/
def plain_output (tag : List Char) (segs : List Seg) : List Char :=
  (segs.filter (fun s => !s.marked)).flatMap (Seg.render tag)

/-! ## Escaper: lemmas -/

theorem foldl_escape (s acc : List Char) :
    s.foldl (fun out c => out ++ escape_char c) acc = acc ++ s.flatMap escape_char := by
  induction s generalizing acc with
  | nil => simp
  | cons c s ih => simp [ih, List.flatMap_cons]

theorem html_escape_eq_flatMap (s : List Char) : html_escape s = s.flatMap escape_char := by
  simp [html_escape, foldl_escape]

@[simp] theorem html_escape_nil : html_escape [] = [] := rfl

@[simp] theorem html_escape_cons (c : Char) (s : List Char) :
    html_escape (c :: s) = escape_char c ++ html_escape s := by
  simp [html_escape_eq_flatMap, List.flatMap_cons]

theorem html_escape_append (s t : List Char) :
    html_escape (s ++ t) = html_escape s ++ html_escape t := by
  simp [html_escape_eq_flatMap]

theorem html_escape_singleton (c : Char) : html_escape [c] = escape_char c := by
  simp

theorem escape_char_length_pos (c : Char) : 1 ≤ (escape_char c).length := by
  unfold escape_char
  split_ifs <;> simp

theorem escape_char_ne_nil (c : Char) : escape_char c ≠ [] := by
  intro h
  have := escape_char_length_pos c
  simp [h] at this

theorem length_le_html_escape (s : List Char) : s.length ≤ (html_escape s).length := by
  induction s with
  | nil => simp
  | cons c s ih =>
    have := escape_char_length_pos c
    simp only [html_escape_cons, List.length_append, List.length_cons]
    omega

theorem escape_char_safe (c : Char) :
    ∀ x ∈ escape_char c, x ≠ '<' ∧ x ≠ '>' ∧ x ≠ '"' := by
  unfold escape_char
  split_ifs with h1 h2 h3 h4
  · decide
  · decide
  · decide
  · decide
  · intro x hx
    simp only [List.mem_singleton] at hx
    subst hx
    exact ⟨h2, h3, h4⟩

theorem html_escape_safe (s : List Char) :
    ∀ x ∈ html_escape s, x ≠ '<' ∧ x ≠ '>' ∧ x ≠ '"' := by
  intro x hx
  rw [html_escape_eq_flatMap, List.mem_flatMap] at hx
  obtain ⟨c, _, hc⟩ := hx
  exact escape_char_safe c x hc

theorem escape_char_of_safe (c : Char) (h1 : c ≠ '&') (h2 : c ≠ '<') (h3 : c ≠ '>')
    (h4 : c ≠ '"') : escape_char c = [c] := by
  simp [escape_char, h1, h2, h3, h4]

theorem escape_char_cases (c : Char) :
    escape_char c = "&amp;".data ∨ escape_char c = "&lt;".data ∨ escape_char c = "&gt;".data
      ∨ escape_char c = "&quot;".data ∨ (c ≠ '&' ∧ escape_char c = [c]) := by
  unfold escape_char
  split_ifs with h1 h2 h3 h4 <;> simp [h1]

theorem escape_char_amp_split (c : Char) (pre suf : List Char)
    (h : escape_char c = pre ++ '&' :: suf) : pre = [] ∧ escape_char c ∈ entities := by
  rcases escape_char_cases c with h1 | h1 | h1 | h1 | ⟨h0, h1⟩
  all_goals rw [h1] at h ⊢
  all_goals
    rcases pre with _ | ⟨p0, _ | ⟨p1, _ | ⟨p2, _ | ⟨p3, _ | ⟨p4, _ | ⟨p5, pre⟩⟩⟩⟩⟩⟩ <;>
      simp [entities] at h ⊢
  exact h0 h.1

theorem html_escape_amp (s : List Char) : ∀ pre suf : List Char,
    html_escape s = pre ++ '&' :: suf → ∃ e ∈ entities, e <+: '&' :: suf := by
  induction s with
  | nil => intro pre suf h; simp at h
  | cons c s ih =>
    intro pre suf h
    rw [html_escape_cons, List.append_eq_append_iff] at h
    rcases h with ⟨t, _, h2⟩ | ⟨t, h1, h2⟩
    · exact ih t suf h2
    · rcases t with _ | ⟨x, t⟩
      · exact ih [] suf (by simpa using h2.symm)
      · simp only [List.cons_append, List.cons.injEq] at h2
        obtain ⟨hx, h2⟩ := h2
        subst hx
        obtain ⟨hp, he⟩ := escape_char_amp_split c pre t h1
        subst hp
        refine ⟨escape_char c, he, ?_⟩
        rw [h1, h2]
        exact ⟨html_escape s, by simp⟩

/-! ## Reference LCS length: lemmas -/

@[simp] theorem lcsLen_nil_left (ys : List Char) : lcsLen [] ys = 0 := rfl

@[simp] theorem lcsLen_nil_right (xs : List Char) : lcsLen xs [] = 0 := by
  cases xs <;> rfl

theorem lcsLen_cons_cons (x y : Char) (xs ys : List Char) :
    lcsLen (x :: xs) (y :: ys)
      = if x = y then lcsLen xs ys + 1 else max (lcsLen xs (y :: ys)) (lcsLen (x :: xs) ys) := by
  simp [lcsLen, lcsLenAux]

theorem lcsLen_le_left : ∀ xs ys : List Char, lcsLen xs ys ≤ xs.length := by
  intro xs
  induction xs with
  | nil => intro ys; simp
  | cons x xs ihx =>
    intro ys
    induction ys with
    | nil => simp
    | cons y ys ihy =>
      rw [lcsLen_cons_cons]
      have h1 := ihx ys
      have h2 := ihx (y :: ys)
      simp only [List.length_cons] at ihy ⊢
      split_ifs <;> omega

theorem lcsLen_le_right : ∀ xs ys : List Char, lcsLen xs ys ≤ ys.length := by
  intro xs
  induction xs with
  | nil => intro ys; simp
  | cons x xs ihx =>
    intro ys
    induction ys with
    | nil => simp
    | cons y ys ihy =>
      rw [lcsLen_cons_cons]
      have h1 := ihx ys
      have h2 := ihx (y :: ys)
      simp only [List.length_cons] at h2 ⊢
      split_ifs <;> omega

/-- No common subsequence is longer than `lcsLen`. -/
theorem lcsLen_optimal : ∀ xs ys s : List Char, List.Sublist s xs → List.Sublist s ys → s.length ≤ lcsLen xs ys := by
  intro xs
  induction xs with
  | nil => intro ys s h1 _; simp [List.sublist_nil.mp h1]
  | cons x xs ihx =>
    intro ys
    induction ys with
    | nil => intro s _ h2; simp [List.sublist_nil.mp h2]
    | cons y ys ihy =>
      intro s h1 h2
      rw [lcsLen_cons_cons]
      cases h1 with
      | cons _ h1 =>
        have := ihx (y :: ys) s h1 h2
        split_ifs with hxy
        · have := ihx ys
          cases h2 with
          | cons _ h2 => have := ihx ys s h1 h2; omega
          | cons₂ _ h2 =>
            rename_i s'
            have := ihx ys s' ((List.sublist_cons_self _ _).trans h1) h2
            simp only [List.length_cons]; omega
        · omega
      | cons₂ _ h1 =>
        rename_i s'
        cases h2 with
        | cons _ h2 =>
          have := ihy (x :: s') (List.Sublist.cons₂ _ h1) h2
          split_ifs with hxy
          · have := ihx ys s' h1 ((List.sublist_cons_self _ _).trans h2)
            simp only [List.length_cons]; omega
          · omega
        | cons₂ _ h2 =>
          have := ihx ys s' h1 h2
          simp only [List.length_cons, if_true]; omega

/-! ## The table fill computes `lcsLen` of the suffixes -/

theorem dp_set_spec (dp : List (List Nat)) (i j v v0 : Nat) (h : dp_get dp i j = some v0) :
    ∃ dp1, dp_set dp i j v = some dp1 ∧
      ∀ i1 j1, dp_get dp1 i1 j1 = if i1 = i ∧ j1 = j then some v else dp_get dp i1 j1 := by
  unfold dp_get at h
  cases hrow : dp[i]? with
  | none => simp [hrow] at h
  | some row =>
    simp only [hrow] at h
    obtain ⟨hj, _⟩ := List.getElem?_eq_some.mp h
    obtain ⟨hi, _⟩ := List.getElem?_eq_some.mp hrow
    refine ⟨dp.set i (row.set j v), by simp [dp_set, hrow, hj], ?_⟩
    intro i1 j1
    unfold dp_get
    by_cases hi1 : i1 = i
    · subst hi1
      simp only [List.getElem?_set_self hi, hrow, true_and]
      by_cases hj1 : j1 = j
      · subst hj1; simp [List.getElem?_set_self hj]
      · simp [hj1, List.getElem?_set_ne (Ne.symm hj1)]
    · simp [hi1, List.getElem?_set_ne (Ne.symm hi1)]

theorem TableInv.mono {a b : List Char} {dp : List (List Nat)} {P Q : Nat → Nat → Prop}
    (h : TableInv a b dp P) (hPQ : ∀ i j, i ≤ a.length → j ≤ b.length → Q i j → P i j) :
    TableInv a b dp Q := by
  intro i j hi hj
  exact ⟨(h i j hi hj).1, fun hq => (h i j hi hj).2 (hPQ i j hi hj hq)⟩

theorem lcsLen_drop (a b : List Char) (i j : Nat) (hi : i < a.length) (hj : j < b.length) :
    lcsLen (a.drop i) (b.drop j)
      = if a[i] = b[j] then lcsLen (a.drop (i + 1)) (b.drop (j + 1)) + 1
        else max (lcsLen (a.drop (i + 1)) (b.drop j)) (lcsLen (a.drop i) (b.drop (j + 1))) := by
  conv_lhs => rw [List.drop_eq_getElem_cons hi, List.drop_eq_getElem_cons hj, lcsLen_cons_cons]
  rw [← List.drop_eq_getElem_cons hi, ← List.drop_eq_getElem_cons hj]

theorem fill_cell_spec (a b : List Char) (dp : List (List Nat)) (P : Nat → Nat → Prop)
    (i j : Nat) (hi : i < a.length) (hj : j < b.length) (h : TableInv a b dp P)
    (h11 : P (i + 1) (j + 1)) (h10 : P (i + 1) j) (h01 : P i (j + 1)) :
    ∃ dp1, fill_cell a b dp i j = some dp1 ∧
      TableInv a b dp1 (fun i1 j1 => P i1 j1 ∨ (i1 = i ∧ j1 = j)) := by
  have e11 := (h (i + 1) (j + 1) (by omega) (by omega)).2 h11
  have e10 := (h (i + 1) j (by omega) (by omega)).2 h10
  have e01 := (h i (j + 1) (by omega) (by omega)).2 h01
  obtain ⟨v0, hv0⟩ := (h i j (by omega) (by omega)).1
  have key : ∃ dp1, fill_cell a b dp i j = some dp1 ∧
      ∀ i1 j1, dp_get dp1 i1 j1 =
        if i1 = i ∧ j1 = j then some (lcsLen (a.drop i) (b.drop j)) else dp_get dp i1 j1 := by
    rw [lcsLen_drop a b i j hi hj]
    unfold fill_cell
    simp only [List.getElem?_eq_getElem hi, List.getElem?_eq_getElem hj, e11, e10, e01]
    split_ifs with hxy
    · exact dp_set_spec dp i j _ v0 hv0
    · exact dp_set_spec dp i j _ v0 hv0
  obtain ⟨dp1, hdp1, hget⟩ := key
  refine ⟨dp1, hdp1, ?_⟩
  intro i1 j1 hi1 hj1
  rw [hget]
  by_cases hc : i1 = i ∧ j1 = j
  · obtain ⟨rfl, rfl⟩ := hc
    simp
  · simp only [hc, if_false, or_false]
    exact h i1 j1 hi1 hj1

theorem fill_row_spec (a b : List Char) (i : Nat) (hi : i < a.length) :
    ∀ (k : Nat) (dp : List (List Nat)), k ≤ b.length →
      TableInv a b dp (fun i1 j1 => i < i1 ∨ j1 = b.length ∨ (i1 = i ∧ k ≤ j1)) →
      ∃ dp1, fill_row a b i k dp = some dp1 ∧
        TableInv a b dp1 (fun i1 j1 => i ≤ i1 ∨ j1 = b.length) := by
  intro k
  induction k with
  | zero =>
    intro dp _ h
    refine ⟨dp, rfl, h.mono ?_⟩
    intro i1 j1 _ _ hq
    omega
  | succ k ih =>
    intro dp hk h
    obtain ⟨dp1, hdp1, h1⟩ := fill_cell_spec a b dp _ i k hi (by omega) h
      (by omega) (by omega) (by omega)
    obtain ⟨dp2, hdp2, h2⟩ := ih dp1 (by omega) (h1.mono (by
      intro i1 j1 _ _ hq
      omega))
    exact ⟨dp2, by simp [fill_row, hdp1, hdp2], h2⟩

theorem fill_rows_spec (a b : List Char) :
    ∀ (k : Nat) (dp : List (List Nat)), k ≤ a.length →
      TableInv a b dp (fun i1 j1 => k ≤ i1 ∨ j1 = b.length) →
      ∃ dp1, fill_rows a b b.length k dp = some dp1 ∧ TableInv a b dp1 (fun _ _ => True) := by
  intro k
  induction k with
  | zero =>
    intro dp _ h
    exact ⟨dp, rfl, h.mono (by intro i1 j1 _ _ _; omega)⟩
  | succ k ih =>
    intro dp hk h
    obtain ⟨dp1, hdp1, h1⟩ := fill_row_spec a b k (by omega) b.length dp (by omega)
      (h.mono (by intro i1 j1 _ _ hq; omega))
    obtain ⟨dp2, hdp2, h2⟩ := ih dp1 (by omega) h1
    exact ⟨dp2, by simp [fill_rows, hdp1, hdp2], h2⟩

theorem dp_get_replicate (n m i j : Nat) (hi : i ≤ n) (hj : j ≤ m) :
    dp_get (List.replicate (n + 1) (List.replicate (m + 1) 0)) i j = some 0 := by
  unfold dp_get
  rw [List.getElem?_replicate_of_lt (by omega)]
  simp only
  rw [List.getElem?_replicate_of_lt (by omega)]

theorem int_of_size_of_lt (x : Nat) (h : x < INT_MAX) : int_of_size x = (x : Int) := by
  unfold int_of_size
  unfold INT_MAX at h
  split_ifs <;> omega

theorem int_of_size_of_eq (x : Nat) (h : x = INT_MAX) : int_of_size x = (INT_MAX : Int) := by
  subst h
  decide

/-- Below `INT_MAX` the casts and the sizes of the table are exact. -/
theorem fill_table_of_lt (a b : List Char) (ha : a.length < INT_MAX)
    (hb : b.length < INT_MAX) :
    fill_table a b = fill_rows a b b.length a.length
      (List.replicate (a.length + 1) (List.replicate (b.length + 1) 0)) := by
  unfold fill_table
  rw [int_of_size_of_lt _ ha, int_of_size_of_lt _ hb]
  have h1 : ¬ (((a.length : Nat) : Int) = (INT_MAX : Int) ∨
      ((b.length : Nat) : Int) = (INT_MAX : Int)) := by omega
  have h2 : ¬ (((a.length : Nat) : Int) + 1 < 0 ∨ ((b.length : Nat) : Int) + 1 < 0) := by
    omega
  have h3 : (((a.length : Nat) : Int) + 1).toNat = a.length + 1 := by omega
  have h4 : (((b.length : Nat) : Int) + 1).toNat = b.length + 1 := by omega
  rw [if_neg h1, if_neg h2, h3, h4, Int.toNat_ofNat, Int.toNat_ofNat]

/-- At a line of `INT_MAX` characters the size `n+1` or `m+1` of the table
overflows, and there is no table. -/
theorem fill_table_of_length (a b : List Char)
    (h : a.length = INT_MAX ∨ b.length = INT_MAX) : fill_table a b = none := by
  unfold fill_table
  rw [if_pos]
  rcases h with h | h
  · exact Or.inl (int_of_size_of_eq _ h)
  · exact Or.inr (int_of_size_of_eq _ h)

/-- The table fill succeeds, and afterwards every cell `dp[i][j]` holds the
reference length of the suffixes `a[i..)`, `b[j..)`. -/
theorem fill_table_spec (a b : List Char) (ha : a.length < INT_MAX)
    (hb : b.length < INT_MAX) :
    ∃ dp, fill_table a b = some dp ∧
      ∀ i j, i ≤ a.length → j ≤ b.length →
        dp_get dp i j = some (lcsLen (a.drop i) (b.drop j)) := by
  rw [fill_table_of_lt a b ha hb]
  have h0 : TableInv a b (List.replicate (a.length + 1) (List.replicate (b.length + 1) 0))
      (fun i1 j1 => a.length ≤ i1 ∨ j1 = b.length) := by
    intro i j hi hj
    rw [dp_get_replicate _ _ _ _ hi hj]
    refine ⟨⟨0, rfl⟩, ?_⟩
    rintro (h | h)
    · rw [List.drop_eq_nil_of_le h]; simp
    · rw [h, List.drop_length]; simp
  obtain ⟨dp, hdp, h⟩ := fill_rows_spec a b a.length _ (le_refl _) h0
  exact ⟨dp, hdp, fun i j hi hj => (h i j hi hj).2 trivial⟩

/-! ## The backtrack loop computes the reference alignment -/

@[simp] theorem align_nil_left (ys : List Char) : align [] ys = [] := by
  rw [align]

@[simp] theorem align_nil_right (xs : List Char) : align xs [] = [] := by
  cases xs <;> rw [align]

theorem align_cons_cons (x y : Char) (xs ys : List Char) :
    align (x :: xs) (y :: ys)
      = if x = y then (0, 0) :: (align xs ys).map (fun p => (p.1 + 1, p.2 + 1))
        else if lcsLen xs (y :: ys) ≥ lcsLen (x :: xs) ys then
          (align xs (y :: ys)).map (fun p => (p.1 + 1, p.2))
        else (align (x :: xs) ys).map (fun p => (p.1, p.2 + 1)) := by
  rw [align]

theorem align_drop (a b : List Char) (i j : Nat) (hi : i < a.length) (hj : j < b.length) :
    align (a.drop i) (b.drop j)
      = if a[i] = b[j] then
          (0, 0) :: (align (a.drop (i + 1)) (b.drop (j + 1))).map (fun p => (p.1 + 1, p.2 + 1))
        else if lcsLen (a.drop (i + 1)) (b.drop j) ≥ lcsLen (a.drop i) (b.drop (j + 1)) then
          (align (a.drop (i + 1)) (b.drop j)).map (fun p => (p.1 + 1, p.2))
        else (align (a.drop i) (b.drop (j + 1))).map (fun p => (p.1, p.2 + 1)) := by
  conv_lhs => rw [List.drop_eq_getElem_cons hi, List.drop_eq_getElem_cons hj, align_cons_cons]
  rw [← List.drop_eq_getElem_cons hi, ← List.drop_eq_getElem_cons hj]

theorem backtrack_loop_spec (a b : List Char) (dp : List (List Nat))
    (hdp : ∀ i j, i ≤ a.length → j ≤ b.length →
      dp_get dp i j = some (lcsLen (a.drop i) (b.drop j))) :
    ∀ (fuel i j : Nat) (res : List (Nat × Nat)), i ≤ a.length → j ≤ b.length →
      (a.length - i) + (b.length - j) ≤ fuel →
      backtrack_loop a b dp a.length b.length fuel i j res
        = some (res ++ (align (a.drop i) (b.drop j)).map (fun p => (p.1 + i, p.2 + j))) := by
  intro fuel
  induction fuel with
  | zero =>
    intro i j res hi hj hf
    rw [backtrack_loop]
    have hc : ¬ (i < a.length ∧ j < b.length) := by omega
    rw [if_neg hc]
    rcases Nat.lt_or_ge i a.length with h | h
    · have hj2 : b.length ≤ j := by omega
      simp [List.drop_eq_nil_of_le hj2]
    · simp [List.drop_eq_nil_of_le h]
  | succ fuel ih =>
    intro i j res hi hj hf
    rw [backtrack_loop]
    by_cases hc : i < a.length ∧ j < b.length
    · obtain ⟨hi1, hj1⟩ := hc
      rw [if_pos ⟨hi1, hj1⟩]
      simp only [List.getElem?_eq_getElem hi1, List.getElem?_eq_getElem hj1,
        hdp (i + 1) j (by omega) (by omega), hdp i (j + 1) (by omega) (by omega)]
      rw [align_drop a b i j hi1 hj1]
      split_ifs with hxy hge
      · rw [ih (i + 1) (j + 1) _ (by omega) (by omega) (by omega)]
        simp [List.map_map, Function.comp_def, Nat.add_assoc, Nat.add_comm 1]
      · rw [ih (i + 1) j _ (by omega) (by omega) (by omega)]
        simp [List.map_map, Function.comp_def, Nat.add_assoc, Nat.add_comm 1]
      · rw [ih i (j + 1) _ (by omega) (by omega) (by omega)]
        simp [List.map_map, Function.comp_def, Nat.add_assoc, Nat.add_comm 1]
    · rw [if_neg hc]
      rcases Nat.lt_or_ge i a.length with h | h
      · have hj2 : b.length ≤ j := by omega
        simp [List.drop_eq_nil_of_le hj2]
      · simp [List.drop_eq_nil_of_le h]

/-- The function `lcs_backtrack` returns, and what it returns is the reference
alignment. -/
theorem lcs_backtrack_eq_align (a b : List Char) (ha : a.length < INT_MAX)
    (hb : b.length < INT_MAX) : lcs_backtrack a b = some (align a b) := by
  obtain ⟨dp, hdp, h⟩ := fill_table_spec a b ha hb
  unfold lcs_backtrack
  rw [hdp]
  simp only
  rw [int_of_size_of_lt _ ha, int_of_size_of_lt _ hb, Int.toNat_ofNat, Int.toNat_ofNat,
    backtrack_loop_spec a b dp h _ 0 0 [] (by omega) (by omega) (by omega)]
  simp

/-- At a line of `INT_MAX` characters `lcs_backtrack` does not return. -/
theorem lcs_backtrack_of_length (a b : List Char)
    (h : a.length = INT_MAX ∨ b.length = INT_MAX) : lcs_backtrack a b = none := by
  unfold lcs_backtrack
  rw [fill_table_of_length a b h]

/-! ## Properties of the reference alignment -/


theorem align_mem : ∀ (n : Nat) (xs ys : List Char), xs.length + ys.length ≤ n →
    ∀ p ∈ align xs ys, ∃ c, xs[p.1]? = some c ∧ ys[p.2]? = some c := by
  intro n
  induction n with
  | zero =>
    intro xs ys h p hp
    have : xs = [] := List.length_eq_zero.mp (by omega)
    subst this
    simp at hp
  | succ n ih =>
    intro xs ys h p hp
    rcases xs with _ | ⟨x, xs⟩
    · simp at hp
    rcases ys with _ | ⟨y, ys⟩
    · simp at hp
    rw [align_cons_cons] at hp
    simp only [List.length_cons] at h
    split_ifs at hp with hxy hge
    · rcases List.mem_cons.mp hp with rfl | hp
      · exact ⟨x, by simp, by simp [hxy]⟩
      · obtain ⟨q, hq, rfl⟩ := List.mem_map.mp hp
        simpa using ih xs ys (by omega) q hq
    · obtain ⟨q, hq, rfl⟩ := List.mem_map.mp hp
      simpa using ih xs (y :: ys) (by simp only [List.length_cons]; omega) q hq
    · obtain ⟨q, hq, rfl⟩ := List.mem_map.mp hp
      simpa using ih (x :: xs) ys (by simp only [List.length_cons]; omega) q hq

theorem align_pairwise : ∀ (n : Nat) (xs ys : List Char), xs.length + ys.length ≤ n →
    List.Pairwise pair_lt (align xs ys) := by
  intro n
  induction n with
  | zero =>
    intro xs ys h
    have : xs = [] := List.length_eq_zero.mp (by omega)
    subst this
    simp
  | succ n ih =>
    intro xs ys h
    rcases xs with _ | ⟨x, xs⟩
    · simp
    rcases ys with _ | ⟨y, ys⟩
    · simp
    rw [align_cons_cons]
    simp only [List.length_cons] at h
    split_ifs with hxy hge
    · rw [List.pairwise_cons]
      constructor
      · intro q hq
        obtain ⟨r, _, rfl⟩ := List.mem_map.mp hq
        simp [pair_lt]
      · rw [List.pairwise_map]
        exact (ih xs ys (by omega)).imp (by
          intro p q hpq
          simp only [pair_lt] at hpq ⊢
          omega)
    · rw [List.pairwise_map]
      exact (ih xs (y :: ys) (by simp only [List.length_cons]; omega)).imp (by
        intro p q hpq
        simp only [pair_lt] at hpq ⊢
        omega)
    · rw [List.pairwise_map]
      exact (ih (x :: xs) ys (by simp only [List.length_cons]; omega)).imp (by
        intro p q hpq
        simp only [pair_lt] at hpq ⊢
        omega)

theorem length_align : ∀ (n : Nat) (xs ys : List Char), xs.length + ys.length ≤ n →
    (align xs ys).length = lcsLen xs ys := by
  intro n
  induction n with
  | zero =>
    intro xs ys h
    have : xs = [] := List.length_eq_zero.mp (by omega)
    subst this
    simp
  | succ n ih =>
    intro xs ys h
    rcases xs with _ | ⟨x, xs⟩
    · simp
    rcases ys with _ | ⟨y, ys⟩
    · simp
    rw [align_cons_cons, lcsLen_cons_cons]
    simp only [List.length_cons] at h
    have h1 := ih xs ys (by omega)
    have h2 := ih xs (y :: ys) (by simp only [List.length_cons]; omega)
    have h3 := ih (x :: xs) ys (by simp only [List.length_cons]; omega)
    split_ifs with hxy hge
    · simp [h1]
    · simp only [List.length_map, h2]; omega
    · simp only [List.length_map, h3]; omega

theorem matched_old_align : ∀ (n : Nat) (xs ys : List Char), xs.length + ys.length ≤ n →
    List.Sublist (matched_old xs (align xs ys)) xs := by
  intro n
  induction n with
  | zero =>
    intro xs ys h
    have : xs = [] := List.length_eq_zero.mp (by omega)
    subst this
    simp [matched_old]
  | succ n ih =>
    intro xs ys h
    rcases xs with _ | ⟨x, xs⟩
    · simp [matched_old]
    rcases ys with _ | ⟨y, ys⟩
    · simp [matched_old]
    rw [align_cons_cons]
    simp only [List.length_cons] at h
    have h1 := ih xs ys (by omega)
    have h2 := ih xs (y :: ys) (by simp only [List.length_cons]; omega)
    have h3 := ih (x :: xs) ys (by simp only [List.length_cons]; omega)
    unfold matched_old at h1 h2 h3 ⊢
    split_ifs with hxy hge
    · simp only [List.filterMap_cons, List.getElem?_cons_zero, List.filterMap_map,
        Function.comp_def, List.getElem?_cons_succ]
      exact List.Sublist.cons₂ _ h1
    · simp only [List.filterMap_map, Function.comp_def, List.getElem?_cons_succ]
      exact List.Sublist.cons _ h2
    · simpa only [List.filterMap_map, Function.comp_def] using h3

theorem matched_new_eq_old (xs ys : List Char) :
    matched_new ys (align xs ys) = matched_old xs (align xs ys) := by
  unfold matched_new matched_old
  apply List.filterMap_congr
  intro p hp
  obtain ⟨c, h1, h2⟩ := align_mem _ xs ys (le_refl _) p hp
  rw [h1, h2]

theorem length_filterMap_of_some (xs : List Char) (f : Nat × Nat → Nat) :
    ∀ r : List (Nat × Nat), (∀ p ∈ r, ∃ c, xs[f p]? = some c) →
      (r.filterMap (fun p => xs[f p]?)).length = r.length := by
  intro r
  induction r with
  | nil => intro _; rfl
  | cons p r ih =>
    intro h
    obtain ⟨c, h1⟩ := h p (List.mem_cons_self _ _)
    simp only [List.filterMap_cons, h1, List.length_cons]
    rw [ih (fun q hq => h q (List.mem_cons_of_mem _ hq))]

theorem length_matched_old (xs ys : List Char) :
    (matched_old xs (align xs ys)).length = (align xs ys).length := by
  apply length_filterMap_of_some xs (fun p => p.1)
  intro p hp
  obtain ⟨c, h1, _⟩ := align_mem _ xs ys (le_refl _) p hp
  exact ⟨c, h1⟩

theorem matched_new_align : ∀ (n : Nat) (xs ys : List Char), xs.length + ys.length ≤ n →
    List.Sublist (matched_new ys (align xs ys)) ys := by
  intro n
  induction n with
  | zero =>
    intro xs ys h
    have : xs = [] := List.length_eq_zero.mp (by omega)
    subst this
    simp [matched_new]
  | succ n ih =>
    intro xs ys h
    rcases xs with _ | ⟨x, xs⟩
    · simp [matched_new]
    rcases ys with _ | ⟨y, ys⟩
    · simp [matched_new]
    rw [align_cons_cons]
    simp only [List.length_cons] at h
    have h1 := ih xs ys (by omega)
    have h2 := ih xs (y :: ys) (by simp only [List.length_cons]; omega)
    have h3 := ih (x :: xs) ys (by simp only [List.length_cons]; omega)
    unfold matched_new at h1 h2 h3 ⊢
    split_ifs with hxy hge
    · simp only [List.filterMap_cons, List.getElem?_cons_zero, List.filterMap_map,
        Function.comp_def, List.getElem?_cons_succ]
      exact List.Sublist.cons₂ _ h1
    · simpa only [List.filterMap_map, Function.comp_def] using h2
    · simp only [List.filterMap_map, Function.comp_def, List.getElem?_cons_succ]
      exact List.Sublist.cons _ h3

/-! ## The render loops and the segments they emit -/

theorem render_side_cons_old (oldLine : List Char) (mt : Nat × Nat) (ks : List Nat)
    (st : List Char × Nat) :
    render_side del_open oldLine (mt.1 :: ks) st
      = match render_old_step oldLine st mt with
        | none => none
        | some st1 => render_side del_open oldLine ks st1 := by
  simp only [render_side, render_old_step, substr]
  by_cases h : st.2 < mt.1 <;> by_cases h2 : st.2 ≤ oldLine.length <;>
    cases hc : oldLine[mt.1]? <;> simp [h, h2]

theorem render_side_cons_new (newLine : List Char) (mt : Nat × Nat) (ks : List Nat)
    (st : List Char × Nat) :
    render_side ins_open newLine (mt.2 :: ks) st
      = match render_new_step newLine st mt with
        | none => none
        | some st1 => render_side ins_open newLine ks st1 := by
  simp only [render_side, render_new_step, substr]
  by_cases h : st.2 < mt.2 <;> by_cases h2 : st.2 ≤ newLine.length <;>
    cases hc : newLine[mt.2]? <;> simp [h, h2]

theorem render_old_loop_eq_side (oldLine : List Char) :
    ∀ (ms : List (Nat × Nat)) (st : List Char × Nat),
      (match render_old_loop oldLine ms st with
        | none => none
        | some (out, ia) =>
          if (ia : Int) < int_of_size oldLine.length then
            (substr_from oldLine ia).map
              (fun t => out ++ (del_open ++ html_escape t ++ span_close))
          else some out)
        = render_side del_open oldLine (ms.map Prod.fst) st := by
  intro ms
  induction ms with
  | nil => intro st; simp [render_old_loop, render_side]
  | cons mt ms ih =>
    intro st
    rw [List.map_cons, render_side_cons_old, render_old_loop]
    cases render_old_step oldLine st mt with
    | none => rfl
    | some st1 => exact ih st1

theorem render_new_loop_eq_side (newLine : List Char) :
    ∀ (ms : List (Nat × Nat)) (st : List Char × Nat),
      (match render_new_loop newLine ms st with
        | none => none
        | some (out, ib) =>
          if (ib : Int) < int_of_size newLine.length then
            (substr_from newLine ib).map
              (fun t => out ++ (ins_open ++ html_escape t ++ span_close))
          else some out)
        = render_side ins_open newLine (ms.map Prod.snd) st := by
  intro ms
  induction ms with
  | nil => intro st; simp [render_new_loop, render_side]
  | cons mt ms ih =>
    intro st
    rw [List.map_cons, render_side_cons_new, render_new_loop]
    cases render_new_step newLine st mt with
    | none => rfl
    | some st1 => exact ih st1

theorem render_old_eq_side (A B : List Char) (hA : A.length < INT_MAX)
    (hB : B.length < INT_MAX) :
    render_old_with_deletions A B
      = render_side del_open A ((align A B).map Prod.fst) ([], 0) := by
  unfold render_old_with_deletions
  rw [lcs_backtrack_eq_align A B hA hB]
  exact render_old_loop_eq_side A _ _

theorem render_new_eq_side (A B : List Char) (hA : A.length < INT_MAX)
    (hB : B.length < INT_MAX) :
    render_new_with_insertions A B
      = render_side ins_open B ((align A B).map Prod.snd) ([], 0) := by
  unfold render_new_with_insertions
  rw [lcs_backtrack_eq_align A B hA hB]
  exact render_new_loop_eq_side B _ _

/-- At a line of `INT_MAX` characters the renderers do not return. -/
theorem render_of_length (A B : List Char)
    (h : A.length = INT_MAX ∨ B.length = INT_MAX) :
    render_old_with_deletions A B = none ∧ render_new_with_insertions A B = none := by
  unfold render_old_with_deletions render_new_with_insertions
  rw [lcs_backtrack_of_length A B h]
  exact ⟨rfl, rfl⟩

/-- The render loop succeeds on increasing indices inside the line, and its
output is the rendering of the segments. -/
theorem render_side_spec (tag ln : List Char) (hl : ln.length < INT_MAX) :
    ∀ (idxs : List Nat) (out : List Char) (pos : Nat),
      List.Pairwise (fun x y => x < y) idxs → (∀ k ∈ idxs, pos ≤ k ∧ k < ln.length) →
      render_side tag ln idxs (out, pos)
        = some (out ++ render_segs tag (segments ln idxs pos)) := by
  intro idxs
  induction idxs with
  | nil =>
    intro out pos _ _
    simp only [render_side, segments, substr_from, int_of_size_of_lt _ hl, Nat.cast_lt]
    by_cases h : pos < ln.length
    · have h2 : pos ≤ ln.length := by omega
      simp [h, h2, render_segs, Seg.render]
    · simp [h, render_segs]
  | cons k ks ih =>
    intro out pos hp hb
    rw [List.pairwise_cons] at hp
    obtain ⟨hk1, hk2⟩ := hb k (List.mem_cons_self _ _)
    have hb2 : ∀ k2 ∈ ks, k + 1 ≤ k2 ∧ k2 < ln.length := fun k2 h2 =>
      ⟨hp.1 k2 h2, (hb k2 (List.mem_cons_of_mem _ h2)).2⟩
    have hle : pos ≤ ln.length := by omega
    simp only [render_side, segments, substr, hle, if_true, List.getElem?_eq_getElem hk2]
    by_cases h : pos < k
    · simp only [h, if_true, Option.map_some']
      rw [ih _ _ hp.2 hb2]
      simp [render_segs, Seg.render, List.flatMap_cons]
    · simp only [h, if_false]
      rw [ih _ _ hp.2 hb2]
      simp [render_segs, Seg.render, List.flatMap_cons]

theorem seg_texts_segments (ln : List Char) (hl : ln.length < INT_MAX) :
    ∀ (idxs : List Nat) (pos : Nat),
      List.Pairwise (fun x y => x < y) idxs → (∀ k ∈ idxs, pos ≤ k ∧ k < ln.length) →
      pos ≤ ln.length → seg_texts (segments ln idxs pos) = ln.drop pos := by
  intro idxs
  induction idxs with
  | nil =>
    intro pos _ _ hle
    simp only [segments, int_of_size_of_lt _ hl, Nat.cast_lt]
    by_cases h : pos < ln.length
    · simp [h, seg_texts]
    · simp [h, seg_texts, List.drop_eq_nil_of_le (Nat.le_of_not_lt h)]
  | cons k ks ih =>
    intro pos hp hb _
    rw [List.pairwise_cons] at hp
    obtain ⟨hk1, hk2⟩ := hb k (List.mem_cons_self _ _)
    have hb2 : ∀ k2 ∈ ks, k + 1 ≤ k2 ∧ k2 < ln.length := fun k2 h2 =>
      ⟨hp.1 k2 h2, (hb k2 (List.mem_cons_of_mem _ h2)).2⟩
    have ih2 := ih (k + 1) hp.2 hb2 (by omega)
    unfold seg_texts at ih2 ⊢
    simp only [segments, List.flatMap_append, List.flatMap_cons, ih2,
      List.getElem?_eq_getElem hk2, Option.toList]
    have e1 : (if pos < k then [(⟨true, (ln.drop pos).take (k - pos)⟩ : Seg)] else []).flatMap
        Seg.text = (ln.drop pos).take (k - pos) := by
      by_cases h : pos < k
      · simp [h]
      · have : k - pos = 0 := by omega
        simp [h, this]
    rw [e1]
    have e4 : [ln[k]] ++ ln.drop (k + 1) = ln.drop k := by
      rw [List.drop_eq_getElem_cons hk2]; rfl
    have e5 : ln.drop k = (ln.drop pos).drop (k - pos) := by
      rw [List.drop_drop]
      congr 1
      omega
    rw [e4, e5, List.take_append_drop]

/-! ## Stripping the markers -/

theorem del_open_eq : del_open = ['<', 's', 'p', 'a', 'n', ' ', 'c', 'l', 'a', 's', 's', '=',
    Char.ofNat 39, 'd', 'e', 'l', Char.ofNat 39, '>'] := by decide

theorem ins_open_eq : ins_open = ['<', 's', 'p', 'a', 'n', ' ', 'c', 'l', 'a', 's', 's', '=',
    Char.ofNat 39, 'i', 'n', 's', Char.ofNat 39, '>'] := by decide

theorem span_close_eq : span_close = ['<', '/', 's', 'p', 'a', 'n', '>'] := by decide

theorem strip_markers_skip (mks : List (List Char)) : ∀ (pre rest : List Char),
    strip_markers mks pre.length (pre ++ rest) = strip_markers mks 0 rest := by
  intro pre
  induction pre with
  | nil => intro rest; rfl
  | cons c pre ih =>
    intro rest
    simp only [List.length_cons, List.cons_append, strip_markers]
    exact ih rest

theorem strip_markers_marker (mks : List (List Char))
    (hm : mks = old_markers ∨ mks = new_markers) (mk rest : List Char) (h : mk ∈ mks) :
    strip_markers mks 0 (mk ++ rest) = strip_markers mks 0 rest := by
  rcases hm with rfl | rfl
  · simp only [old_markers, List.mem_cons, List.mem_singleton, List.not_mem_nil, or_false] at h
    rcases h with rfl | rfl
    · rw [del_open_eq]
      simp [strip_markers, old_markers, del_open_eq, span_close_eq]
    · rw [span_close_eq]
      simp [strip_markers, old_markers, del_open_eq, span_close_eq]
  · simp only [new_markers, List.mem_cons, List.mem_singleton, List.not_mem_nil, or_false] at h
    rcases h with rfl | rfl
    · rw [ins_open_eq]
      simp [strip_markers, new_markers, ins_open_eq, span_close_eq]
    · rw [span_close_eq]
      simp [strip_markers, new_markers, ins_open_eq, span_close_eq]

theorem strip_markers_plain (mks : List (List Char))
    (hm : mks = old_markers ∨ mks = new_markers) (c : Char) (cs : List Char) (h : c ≠ '<') :
    strip_markers mks 0 (c :: cs) = c :: strip_markers mks 0 cs := by
  have h2 : ¬ ('<' = c) := fun e => h e.symm
  rcases hm with rfl | rfl
  · simp [strip_markers, old_markers, del_open_eq, span_close_eq, h2]
  · simp [strip_markers, new_markers, ins_open_eq, span_close_eq, h2]

theorem strip_markers_safe (mks : List (List Char))
    (hm : mks = old_markers ∨ mks = new_markers) : ∀ (l rest : List Char),
    (∀ x ∈ l, x ≠ '<') → strip_markers mks 0 (l ++ rest) = l ++ strip_markers mks 0 rest := by
  intro l
  induction l with
  | nil => intro rest _; rfl
  | cons c l ih =>
    intro rest h
    rw [List.cons_append, strip_markers_plain mks hm c _ (h c (List.mem_cons_self _ _)),
      ih rest (fun x hx => h x (List.mem_cons_of_mem _ hx))]
    rfl

theorem strip_markers_escape (mks : List (List Char))
    (hm : mks = old_markers ∨ mks = new_markers) (t rest : List Char) :
    strip_markers mks 0 (html_escape t ++ rest) = html_escape t ++ strip_markers mks 0 rest :=
  strip_markers_safe mks hm _ _ (fun x hx => (html_escape_safe t x hx).1)

/-- Deleting the markers from the rendering of segments leaves the escaped
text of the segments. -/
theorem strip_markers_render_segs (mks : List (List Char))
    (hm : mks = old_markers ∨ mks = new_markers) (tag : List Char) (htag : tag ∈ mks) :
    ∀ segs : List Seg,
      strip_markers mks 0 (render_segs tag segs) = html_escape (seg_texts segs) := by
  have hclose : span_close ∈ mks := by
    rcases hm with rfl | rfl <;> simp [old_markers, new_markers]
  intro segs
  induction segs with
  | nil => rfl
  | cons s segs ih =>
    unfold render_segs seg_texts at ih ⊢
    rw [List.flatMap_cons, List.flatMap_cons, html_escape_append, ← ih]
    unfold Seg.render
    by_cases hmk : s.marked = true
    · rw [if_pos hmk, List.append_assoc, List.append_assoc,
        strip_markers_marker mks hm _ _ htag, strip_markers_escape mks hm,
        strip_markers_marker mks hm _ _ hclose]
    · rw [if_neg hmk, strip_markers_escape mks hm]

/-! ## Shape of the segment sequence -/

theorem segments_chain (ln : List Char) : ∀ (idxs : List Nat) (pos : Nat),
    List.Chain' (fun s t : Seg => ¬ (s.marked = true ∧ t.marked = true))
      (segments ln idxs pos) := by
  intro idxs
  induction idxs with
  | nil =>
    intro pos
    simp only [segments]
    split_ifs <;> simp
  | cons k ks ih =>
    intro pos
    simp only [segments]
    have h1 : List.Chain' (fun s t : Seg => ¬ (s.marked = true ∧ t.marked = true))
        (⟨false, (ln[k]?).toList⟩ :: segments ln ks (k + 1)) :=
      List.Chain'.cons' (ih (k + 1)) (fun y _ => by simp)
    split_ifs
    · exact List.Chain'.cons' h1 (fun y hy => by simp at hy; subst hy; simp)
    · simpa using h1

theorem segments_text_ne_nil (ln : List Char) (hl : ln.length < INT_MAX) :
    ∀ (idxs : List Nat) (pos : Nat),
    List.Pairwise (fun x y => x < y) idxs → (∀ k ∈ idxs, pos ≤ k ∧ k < ln.length) →
    ∀ s ∈ segments ln idxs pos, s.text ≠ [] := by
  intro idxs
  induction idxs with
  | nil =>
    intro pos _ _ s hs
    simp only [segments, int_of_size_of_lt _ hl, Nat.cast_lt] at hs
    split_ifs at hs with h
    · simp only [List.mem_singleton] at hs
      subst hs
      simp only [ne_eq, List.drop_eq_nil_iff]
      omega
    · simp at hs
  | cons k ks ih =>
    intro pos hp hb s hs
    rw [List.pairwise_cons] at hp
    obtain ⟨hk1, hk2⟩ := hb k (List.mem_cons_self _ _)
    have hb2 : ∀ k2 ∈ ks, k + 1 ≤ k2 ∧ k2 < ln.length := fun k2 h2 =>
      ⟨hp.1 k2 h2, (hb k2 (List.mem_cons_of_mem _ h2)).2⟩
    simp only [segments, List.mem_append, List.mem_cons] at hs
    rcases hs with hs | hs | hs
    · split_ifs at hs with h
      · simp only [List.mem_singleton] at hs
        subst hs
        intro he
        have hl := congrArg List.length he
        simp only [List.length_take, List.length_drop, List.length_nil] at hl
        omega
      · simp at hs
    · subst hs
      simp [List.getElem?_eq_getElem hk2]
    · exact ih (k + 1) hp.2 hb2 s hs

/-! ## No closing marker directly before an opening marker -/

theorem chain_markers : List.Chain' no_gt_lt del_open ∧ List.Chain' no_gt_lt ins_open
    ∧ List.Chain' no_gt_lt span_close := by
  rw [del_open_eq, ins_open_eq, span_close_eq]
  simp [List.chain'_cons, no_gt_lt]

theorem chain_of_no_gt : ∀ l : List Char, (∀ x ∈ l, x ≠ '>') → List.Chain' no_gt_lt l := by
  intro l
  induction l with
  | nil => intro _; exact List.chain'_nil
  | cons c l ih =>
    intro h
    refine List.Chain'.cons' (ih (fun x hx => h x (List.mem_cons_of_mem _ hx))) ?_
    intro y _ hxy
    exact h c (List.mem_cons_self _ _) hxy.1

theorem chain_html_escape (t : List Char) : List.Chain' no_gt_lt (html_escape t) :=
  chain_of_no_gt _ (fun x hx => (html_escape_safe t x hx).2.1)

theorem html_escape_ne_nil (t : List Char) (h : t ≠ []) : html_escape t ≠ [] := by
  intro he
  have h1 := length_le_html_escape t
  rw [he] at h1
  exact h (List.length_eq_zero.mp (by simpa using h1))

theorem chain_marked (tag t : List Char) (htag : tag = del_open ∨ tag = ins_open)
    (ht : t ≠ []) : List.Chain' no_gt_lt (tag ++ html_escape t ++ span_close) := by
  have hs := html_escape_safe t
  rw [List.chain'_append, List.chain'_append]
  refine ⟨⟨?_, chain_html_escape t, ?_⟩, chain_markers.2.2, ?_⟩
  · rcases htag with rfl | rfl
    · exact chain_markers.1
    · exact chain_markers.2.1
  · intro x _ y hy hxy
    exact (hs y (List.mem_of_mem_head? hy)).1 hxy.2
  · intro x hx y _ hxy
    rw [List.getLast?_append] at hx
    cases hl : (html_escape t).getLast? with
    | none =>
      exact html_escape_ne_nil t ht (List.getLast?_eq_none_iff.mp hl)
    | some z =>
      rw [hl] at hx
      simp only [Option.or, Option.mem_def, Option.some.injEq] at hx
      subst hx
      exact (hs z (List.mem_of_mem_getLast? hl)).2.1 hxy.1

theorem render_segs_chain (tag : List Char) (htag : tag = del_open ∨ tag = ins_open) :
    ∀ segs : List Seg, (∀ s ∈ segs, s.text ≠ []) →
      List.Chain' (fun s t : Seg => ¬ (s.marked = true ∧ t.marked = true)) segs →
      List.Chain' no_gt_lt (render_segs tag segs) := by
  intro segs
  induction segs with
  | nil => intro _ _; exact List.chain'_nil
  | cons s segs ih =>
    intro hne hch
    have ih2 := ih (fun s hs => hne s (List.mem_cons_of_mem _ hs)) hch.tail
    have hsne := hne s (List.mem_cons_self _ _)
    unfold render_segs at ih2 ⊢
    rw [List.flatMap_cons, List.chain'_append]
    refine ⟨?_, ih2, ?_⟩
    · unfold Seg.render
      split_ifs
      · exact chain_marked tag _ htag hsne
      · exact chain_html_escape _
    · intro x hx y hy hxy
      by_cases hm : s.marked = true
      · -- the next segment is plain, so the output goes on with an escaped character
        rcases segs with _ | ⟨t, segs⟩
        · simp at hy
        · have htm : ¬ t.marked = true := fun h2 => (List.chain'_cons.mp hch).1 ⟨hm, h2⟩
          have htne := hne t (List.mem_cons_of_mem _ (List.mem_cons_self _ _))
          rw [List.flatMap_cons] at hy
          unfold Seg.render at hy
          rw [if_neg htm, List.head?_append] at hy
          cases hh : (html_escape t.text).head? with
          | none => exact html_escape_ne_nil _ htne (List.head?_eq_none_iff.mp hh)
          | some z =>
            rw [hh] at hy
            simp only [Option.or, Option.mem_def, Option.some.injEq] at hy
            subst hy
            exact (html_escape_safe _ z (List.mem_of_mem_head? hh)).1 hxy.2
      · unfold Seg.render at hx
        rw [if_neg hm] at hx
        exact (html_escape_safe _ x (List.mem_of_mem_getLast? hx)).2.1 hxy.1

/-! ## Identical lines, and lines without a common character -/

theorem align_self : ∀ xs : List Char,
    align xs xs = (List.range xs.length).map (fun i => (i, i)) := by
  intro xs
  induction xs with
  | nil => simp
  | cons x xs ih =>
    rw [align_cons_cons, if_pos rfl, ih, List.length_cons, List.range_succ_eq_map]
    simp [List.map_map, Function.comp_def]

theorem align_disjoint : ∀ (n : Nat) (xs ys : List Char), xs.length + ys.length ≤ n →
    (∀ x ∈ xs, x ∉ ys) → align xs ys = [] := by
  intro n
  induction n with
  | zero =>
    intro xs ys h _
    have : xs = [] := List.length_eq_zero.mp (by omega)
    subst this
    simp
  | succ n ih =>
    intro xs ys h hd
    rcases xs with _ | ⟨x, xs⟩
    · simp
    rcases ys with _ | ⟨y, ys⟩
    · simp
    simp only [List.length_cons] at h
    have hxy : x ≠ y := fun e =>
      hd x (List.mem_cons_self _ _) (e ▸ List.mem_cons_self _ _)
    rw [align_cons_cons, if_neg hxy,
      ih xs (y :: ys) (by simp only [List.length_cons]; omega)
        (fun z hz => hd z (List.mem_cons_of_mem _ hz)),
      ih (x :: xs) ys (by simp only [List.length_cons]; omega)
        (fun z hz hz2 => hd z hz (List.mem_cons_of_mem _ hz2))]
    simp

theorem segments_range (ln : List Char) (hl : ln.length < INT_MAX) :
    ∀ (k pos : Nat), pos + k = ln.length →
    segments ln (List.range' pos k) pos = (ln.drop pos).map (fun c => ⟨false, [c]⟩) := by
  intro k
  induction k with
  | zero =>
    intro pos h
    have h1 : ¬ pos < ln.length := by omega
    simp [segments, int_of_size_of_lt _ hl, h1, List.drop_eq_nil_of_le (Nat.le_of_not_lt h1)]
  | succ k ih =>
    intro pos h
    have h1 : pos < ln.length := by omega
    rw [List.range'_succ, segments, ih (pos + 1) (by omega)]
    conv_rhs => rw [List.drop_eq_getElem_cons h1]
    simp only [Nat.lt_irrefl, if_false, List.nil_append, List.getElem?_eq_getElem h1,
      Option.toList, List.map_cons]

theorem render_segs_plain (tag : List Char) : ∀ l : List Char,
    render_segs tag (l.map (fun c => ⟨false, [c]⟩)) = html_escape l := by
  intro l
  induction l with
  | nil => rfl
  | cons c l ih =>
    unfold render_segs at ih ⊢
    rw [List.map_cons, List.flatMap_cons, ih]
    simp [Seg.render]

/-! ## The indices of the alignment, as the render loops need them -/

theorem align_fst_spec (A B : List Char) :
    List.Pairwise (fun x y => x < y) ((align A B).map Prod.fst)
      ∧ ∀ k ∈ (align A B).map Prod.fst, 0 ≤ k ∧ k < A.length := by
  constructor
  · rw [List.pairwise_map]
    exact (align_pairwise _ A B (le_refl _)).imp (fun h => h.1)
  · intro k hk
    obtain ⟨p, hp, rfl⟩ := List.mem_map.mp hk
    obtain ⟨c, h1, _⟩ := align_mem _ A B (le_refl _) p hp
    exact ⟨Nat.zero_le _, (List.getElem?_eq_some.mp h1).1⟩

theorem align_snd_spec (A B : List Char) :
    List.Pairwise (fun x y => x < y) ((align A B).map Prod.snd)
      ∧ ∀ k ∈ (align A B).map Prod.snd, 0 ≤ k ∧ k < B.length := by
  constructor
  · rw [List.pairwise_map]
    exact (align_pairwise _ A B (le_refl _)).imp (fun h => h.2)
  · intro k hk
    obtain ⟨p, hp, rfl⟩ := List.mem_map.mp hk
    obtain ⟨c, _, h2⟩ := align_mem _ A B (le_refl _) p hp
    exact ⟨Nat.zero_le _, (List.getElem?_eq_some.mp h2).1⟩

theorem render_old_eq_segments (A B : List Char) (hA : A.length < INT_MAX)
    (hB : B.length < INT_MAX) :
    render_old_with_deletions A B
      = some (render_segs del_open (segments A ((align A B).map Prod.fst) 0)) := by
  rw [render_old_eq_side A B hA hB,
    render_side_spec del_open A hA _ [] 0 (align_fst_spec A B).1 (align_fst_spec A B).2]
  rfl

theorem render_new_eq_segments (A B : List Char) (hA : A.length < INT_MAX)
    (hB : B.length < INT_MAX) :
    render_new_with_insertions A B
      = some (render_segs ins_open (segments B ((align A B).map Prod.snd) 0)) := by
  rw [render_new_eq_side A B hA hB,
    render_side_spec ins_open B hB _ [] 0 (align_snd_spec A B).1 (align_snd_spec A B).2]
  rfl

theorem old_segments_eq (A B : List Char) (hA : A.length < INT_MAX)
    (hB : B.length < INT_MAX) :
    old_segments A B = some (segments A ((align A B).map Prod.fst) 0) := by
  simp [old_segments, lcs_backtrack_eq_align A B hA hB]

theorem new_segments_eq (A B : List Char) (hA : A.length < INT_MAX)
    (hB : B.length < INT_MAX) :
    new_segments A B = some (segments B ((align A B).map Prod.snd) 0) := by
  simp [new_segments, lcs_backtrack_eq_align A B hA hB]

/-- At a line of `INT_MAX` characters there are no segments. -/
theorem segments_of_length (A B : List Char)
    (h : A.length = INT_MAX ∨ B.length = INT_MAX) :
    old_segments A B = none ∧ new_segments A B = none := by
  unfold old_segments new_segments
  rw [lcs_backtrack_of_length A B h]
  exact ⟨rfl, rfl⟩

/-- A line of `INT_MAX` characters. -/
theorem length_long_line : (List.replicate INT_MAX 'a').length = INT_MAX :=
  List.length_replicate _ _

/-! ## The claims -/

/-- C1, as stated, fails for a line of `INT_MAX` characters: the size `n+1`
of the table overflows `int`, the table is not built, and `lcs_backtrack`
returns no list of pairs. -/
theorem lcs_backtrack_no_list_at_int_max :
    (List.replicate INT_MAX 'a').length = INT_MAX ∧
    lcs_backtrack (List.replicate INT_MAX 'a') [] = none ∧
    ¬ ∃ r, lcs_backtrack (List.replicate INT_MAX 'a') [] = some r := by
  refine ⟨length_long_line, lcs_backtrack_of_length _ _ (Or.inl length_long_line), ?_⟩
  rw [lcs_backtrack_of_length _ _ (Or.inl length_long_line)]
  rintro ⟨r, hr⟩
  cases hr

/-- C1, amended: for lines shorter than `INT_MAX`, `lcs_backtrack A B` returns a list of index pairs; every pair `(i, j)`
of it has `i < |A|`, `j < |B|` and `A[i] = B[j]`; consecutive pairs (and so
any two pairs, in order) increase strictly in both components, and no old
index and no new index occurs twice. -/
theorem lcs_backtrack_matches (A B : List Char) (hA : A.length < INT_MAX)
    (hB : B.length < INT_MAX) :
    ∃ r, lcs_backtrack A B = some r ∧
      (∀ p ∈ r, p.1 < A.length ∧ p.2 < B.length ∧ A[p.1]? = B[p.2]?) ∧
      List.Chain' pair_lt r ∧ List.Pairwise pair_lt r ∧
      (r.map Prod.fst).Nodup ∧ (r.map Prod.snd).Nodup := by
  refine ⟨align A B, lcs_backtrack_eq_align A B hA hB, ?_, ?_, ?_, ?_, ?_⟩
  · intro p hp
    obtain ⟨c, h1, h2⟩ := align_mem _ A B (le_refl _) p hp
    exact ⟨(List.getElem?_eq_some.mp h1).1, (List.getElem?_eq_some.mp h2).1, by rw [h1, h2]⟩
  · exact List.Pairwise.chain' (align_pairwise _ A B (le_refl _))
  · exact align_pairwise _ A B (le_refl _)
  · exact ((align_fst_spec A B).1).imp (fun h => Nat.ne_of_lt h)
  · exact ((align_snd_spec A B).1).imp (fun h => Nat.ne_of_lt h)

/-- The amended C1 at the lines `cat` and `cot`. -/
theorem lcs_backtrack_matches_witness :
    ∃ r, lcs_backtrack "cat".data "cot".data = some r ∧
      (∀ p ∈ r, p.1 < "cat".data.length ∧ p.2 < "cot".data.length ∧ "cat".data[p.1]? = "cot".data[p.2]?) ∧
      List.Chain' pair_lt r ∧ List.Pairwise pair_lt r ∧
      (r.map Prod.fst).Nodup ∧ (r.map Prod.snd).Nodup :=
  lcs_backtrack_matches "cat".data "cot".data (by decide) (by decide)

/-- C2, as stated, fails for a new line of `INT_MAX` characters: the size
`m+1` of the table overflows `int`, so there is neither a table with a cell
`dp[0][0]` nor a match list whose length could be that of a longest common
subsequence. -/
theorem lcs_length_absent_at_int_max :
    (List.replicate INT_MAX 'a').length = INT_MAX ∧
    fill_table ['a'] (List.replicate INT_MAX 'a') = none ∧
    lcs_backtrack ['a'] (List.replicate INT_MAX 'a') = none :=
  ⟨length_long_line, fill_table_of_length _ _ (Or.inr length_long_line),
    lcs_backtrack_of_length _ _ (Or.inr length_long_line)⟩

/-- C2, amended: for lines shorter than `INT_MAX`, the length of
`lcs_backtrack A B` is the length of a longest common
subsequence of `A` and `B`: the matched characters (the same read from `A`
or from `B`, one for each match) form a subsequence of `A` and of `B`, no
common subsequence is longer than the match list, and the length is the
top-left cell `dp[0][0]` of the filled table. -/
theorem lcs_backtrack_optimal (A B : List Char) (hA : A.length < INT_MAX)
    (hB : B.length < INT_MAX) :
    ∃ r dp, lcs_backtrack A B = some r ∧ fill_table A B = some dp ∧
      matched_new B r = matched_old A r ∧ (matched_old A r).length = r.length ∧
      List.Sublist (matched_old A r) A ∧ List.Sublist (matched_old A r) B ∧
      (∀ s, List.Sublist s A → List.Sublist s B → s.length ≤ r.length) ∧
      dp_get dp 0 0 = some r.length := by
  obtain ⟨dp, hdp, h⟩ := fill_table_spec A B hA hB
  refine ⟨align A B, dp, lcs_backtrack_eq_align A B hA hB, hdp, matched_new_eq_old A B,
    length_matched_old A B, matched_old_align _ A B (le_refl _), ?_, ?_, ?_⟩
  · rw [← matched_new_eq_old]
    exact matched_new_align _ A B (le_refl _)
  · intro s h1 h2
    rw [length_align _ A B (le_refl _)]
    exact lcsLen_optimal A B s h1 h2
  · rw [h 0 0 (Nat.zero_le _) (Nat.zero_le _), length_align _ A B (le_refl _)]
    rfl

/-- The amended C2 at the lines `cat` and `cot`. -/
theorem lcs_backtrack_optimal_witness :
    ∃ r dp, lcs_backtrack "cat".data "cot".data = some r ∧ fill_table "cat".data "cot".data = some dp ∧
      matched_new "cot".data r = matched_old "cat".data r ∧ (matched_old "cat".data r).length = r.length ∧
      List.Sublist (matched_old "cat".data r) "cat".data ∧ List.Sublist (matched_old "cat".data r) "cot".data ∧
      (∀ s, List.Sublist s "cat".data → List.Sublist s "cot".data → s.length ≤ r.length) ∧
      dp_get dp 0 0 = some r.length :=
  lcs_backtrack_optimal "cat".data "cot".data (by decide) (by decide)

/-- C3, as stated, fails for a line of `INT_MAX` characters: neither renderer
returns, so there is no output whose segments could give back the line. -/
theorem render_round_trip_fails_at_int_max :
    (List.replicate INT_MAX 'a').length = INT_MAX ∧
    render_old_with_deletions (List.replicate INT_MAX 'a') [] = none ∧
    render_new_with_insertions [] (List.replicate INT_MAX 'a') = none :=
  ⟨length_long_line, (render_of_length _ _ (Or.inl length_long_line)).1,
    (render_of_length _ _ (Or.inr length_long_line)).2⟩

/-- C3, amended: for lines shorter than `INT_MAX`, the old-side rendering of
`(A, B)` is the concatenation of segments,
each the escaped text `html_escape s` or that text between the deletion
marker and the closing marker, whose texts concatenate to `A`; the new-side
rendering is such a concatenation with the insertion marker, whose texts
concatenate to `B`; and deleting the marker strings from the old-side
(new-side) rendering leaves `html_escape A` (`html_escape B`). -/
theorem render_round_trip (A B : List Char) (hA : A.length < INT_MAX)
    (hB : B.length < INT_MAX) :
    (∃ segs, old_segments A B = some segs ∧
      render_old_with_deletions A B = some (render_segs del_open segs) ∧
      seg_texts segs = A ∧
      strip_markers old_markers 0 (render_segs del_open segs) = html_escape A) ∧
    (∃ segs, new_segments A B = some segs ∧
      render_new_with_insertions A B = some (render_segs ins_open segs) ∧
      seg_texts segs = B ∧
      strip_markers new_markers 0 (render_segs ins_open segs) = html_escape B) := by
  have ha : seg_texts (segments A ((align A B).map Prod.fst) 0) = A :=
    seg_texts_segments A hA _ 0 (align_fst_spec A B).1 (align_fst_spec A B).2 (Nat.zero_le _)
  have hb : seg_texts (segments B ((align A B).map Prod.snd) 0) = B :=
    seg_texts_segments B hB _ 0 (align_snd_spec A B).1 (align_snd_spec A B).2 (Nat.zero_le _)
  constructor
  · refine ⟨_, old_segments_eq A B hA hB, render_old_eq_segments A B hA hB, ha, ?_⟩
    rw [strip_markers_render_segs old_markers (Or.inl rfl) del_open (by simp [old_markers]), ha]
  · refine ⟨_, new_segments_eq A B hA hB, render_new_eq_segments A B hA hB, hb, ?_⟩
    rw [strip_markers_render_segs new_markers (Or.inr rfl) ins_open (by simp [new_markers]), hb]

/-- The amended C3 at the lines `cat` and `cot`. -/
theorem render_round_trip_witness :
    (∃ segs, old_segments "cat".data "cot".data = some segs ∧
      render_old_with_deletions "cat".data "cot".data = some (render_segs del_open segs) ∧
      seg_texts segs = "cat".data ∧
      strip_markers old_markers 0 (render_segs del_open segs) = html_escape "cat".data) ∧
    (∃ segs, new_segments "cat".data "cot".data = some segs ∧
      render_new_with_insertions "cat".data "cot".data = some (render_segs ins_open segs) ∧
      seg_texts segs = "cot".data ∧
      strip_markers new_markers 0 (render_segs ins_open segs) = html_escape "cot".data) :=
  render_round_trip "cat".data "cot".data (by decide) (by decide)

/-- C4, as stated, fails for a line `A` of `INT_MAX` characters: for the pair
`(A, A)` the size of the table overflows `int`, and neither the match list
nor a rendering is returned. -/
theorem identical_lines_fail_at_int_max :
    (List.replicate INT_MAX 'a').length = INT_MAX ∧
    lcs_backtrack (List.replicate INT_MAX 'a') (List.replicate INT_MAX 'a') = none ∧
    render_old_with_deletions (List.replicate INT_MAX 'a') (List.replicate INT_MAX 'a')
      = none ∧
    render_new_with_insertions (List.replicate INT_MAX 'a') (List.replicate INT_MAX 'a')
      = none :=
  ⟨length_long_line, lcs_backtrack_of_length _ _ (Or.inl length_long_line),
    (render_of_length _ _ (Or.inl length_long_line)).1,
    (render_of_length _ _ (Or.inl length_long_line)).2⟩

/-- C4, amended: for identical lines shorter than `INT_MAX` the match list is `(0,0), (1,1), ..., (|A|-1,
|A|-1)`, of length `|A|`; both renderings are `html_escape A`, and none of
their segments is a marked run. -/
theorem identical_lines (A : List Char) (hA : A.length < INT_MAX) :
    lcs_backtrack A A = some ((List.range A.length).map (fun i => (i, i))) ∧
    ((List.range A.length).map (fun i => (i, i))).length = A.length ∧
    render_old_with_deletions A A = some (html_escape A) ∧
    render_new_with_insertions A A = some (html_escape A) ∧
    (∃ segs, old_segments A A = some segs ∧ ∀ s ∈ segs, s.marked = false) ∧
    (∃ segs, new_segments A A = some segs ∧ ∀ s ∈ segs, s.marked = false) := by
  have h1 : (align A A).map Prod.fst = List.range' 0 A.length := by
    rw [align_self, List.range_eq_range']
    simp [List.map_map, Function.comp_def]
  have h2 : (align A A).map Prod.snd = List.range' 0 A.length := by
    rw [align_self, List.range_eq_range']
    simp [List.map_map, Function.comp_def]
  have h3 := segments_range A hA A.length 0 (by omega)
  rw [List.drop_zero] at h3
  refine ⟨?_, by simp, ?_, ?_, ⟨_, old_segments_eq A A hA hA, ?_⟩, ⟨_, new_segments_eq A A hA hA, ?_⟩⟩
  · rw [lcs_backtrack_eq_align A A hA hA, align_self]
  · rw [render_old_eq_segments A A hA hA, h1, h3, render_segs_plain]
  · rw [render_new_eq_segments A A hA hA, h2, h3, render_segs_plain]
  · rw [h1, h3]
    intro s hs
    obtain ⟨c, _, rfl⟩ := List.mem_map.mp hs
    rfl
  · rw [h2, h3]
    intro s hs
    obtain ⟨c, _, rfl⟩ := List.mem_map.mp hs
    rfl

/-- The amended C4 at the line `cat`. -/
theorem identical_lines_witness :
    lcs_backtrack "cat".data "cat".data = some ((List.range "cat".data.length).map (fun i => (i, i))) ∧
    ((List.range "cat".data.length).map (fun i => (i, i))).length = "cat".data.length ∧
    render_old_with_deletions "cat".data "cat".data = some (html_escape "cat".data) ∧
    render_new_with_insertions "cat".data "cat".data = some (html_escape "cat".data) ∧
    (∃ segs, old_segments "cat".data "cat".data = some segs ∧ ∀ s ∈ segs, s.marked = false) ∧
    (∃ segs, new_segments "cat".data "cat".data = some segs ∧ ∀ s ∈ segs, s.marked = false) :=
  identical_lines "cat".data (by decide)

/-- C5, as stated, fails for an empty line: `""` and `"x"` share no character,
and the old-side rendering is the empty string, not an empty deletion run;
likewise on the new side for `"x"` and `""`.  It also fails for a line of
`INT_MAX` characters, which shares no character with the empty line: the
renderers do not return. -/
theorem no_common_char_empty_line :
    ((∀ x ∈ ([] : List Char), x ∉ ['x']) ∧
      render_old_with_deletions [] ['x'] = some [] ∧
      render_old_with_deletions [] ['x'] ≠ some (del_open ++ html_escape [] ++ span_close) ∧
      (∀ x ∈ ['x'], x ∉ ([] : List Char)) ∧
      render_new_with_insertions ['x'] [] = some [] ∧
      render_new_with_insertions ['x'] [] ≠ some (ins_open ++ html_escape [] ++ span_close)) ∧
    (List.replicate INT_MAX 'a').length = INT_MAX ∧
    (∀ x ∈ List.replicate INT_MAX 'a', x ∉ ([] : List Char)) ∧
    render_old_with_deletions (List.replicate INT_MAX 'a') [] = none ∧
    render_new_with_insertions [] (List.replicate INT_MAX 'a') = none :=
  ⟨by decide, length_long_line, fun x _ h => List.not_mem_nil x h,
    (render_of_length _ _ (Or.inl length_long_line)).1,
    (render_of_length _ _ (Or.inr length_long_line)).2⟩

/-- C5, amended: when `A` and `B` are shorter than `INT_MAX` and share no
character, the old-side rendering is the single deletion run `<span class='del'>` ++ `html_escape A` ++
`</span>` if `A` is not empty and the empty string if `A` is empty, and the
new-side rendering is the single insertion run around `html_escape B` if `B`
is not empty and the empty string if `B` is empty. -/
theorem no_common_char (A B : List Char) (hA : A.length < INT_MAX)
    (hB : B.length < INT_MAX) (h : ∀ x ∈ A, x ∉ B) :
    render_old_with_deletions A B
      = some (if A = [] then [] else del_open ++ html_escape A ++ span_close) ∧
    render_new_with_insertions A B
      = some (if B = [] then [] else ins_open ++ html_escape B ++ span_close) := by
  have h0 := align_disjoint _ A B (le_refl _) h
  rw [render_old_eq_segments A B hA hB, render_new_eq_segments A B hA hB, h0]
  simp only [List.map_nil, segments, List.drop_zero, int_of_size_of_lt _ hA,
    int_of_size_of_lt _ hB, Nat.cast_lt]
  constructor
  · rcases A with _ | ⟨a, A⟩
    · rfl
    · simp [render_segs, Seg.render]
  · rcases B with _ | ⟨b, B⟩
    · rfl
    · simp [render_segs, Seg.render]

/-- The amended C5 at the lines `ab` and `cd`, which share no character. -/
theorem no_common_char_witness :
    (∀ x ∈ "ab".data, x ∉ "cd".data) ∧
    render_old_with_deletions "ab".data "cd".data = some "<span class='del'>ab</span>".data ∧
    render_new_with_insertions "ab".data "cd".data = some "<span class='ins'>cd</span>".data :=
  ⟨by decide, no_common_char "ab".data "cd".data (by decide) (by decide) (by decide)⟩

/-- C6, as stated, fails for a line of `INT_MAX` characters: the renderers
return nothing and emit no segment sequence, so there are no runs to be
maximal. -/
theorem marked_runs_absent_at_int_max :
    (List.replicate INT_MAX 'a').length = INT_MAX ∧
    old_segments (List.replicate INT_MAX 'a') ['b'] = none ∧
    render_old_with_deletions (List.replicate INT_MAX 'a') ['b'] = none ∧
    new_segments (List.replicate INT_MAX 'a') ['b'] = none ∧
    render_new_with_insertions (List.replicate INT_MAX 'a') ['b'] = none :=
  ⟨length_long_line, (segments_of_length _ _ (Or.inl length_long_line)).1,
    (render_of_length _ _ (Or.inl length_long_line)).1,
    (segments_of_length _ _ (Or.inl length_long_line)).2,
    (render_of_length _ _ (Or.inl length_long_line)).2⟩

/-- C6, amended: for lines shorter than `INT_MAX`, in the segment sequence of
either rendering no marked segment is empty
and no two marked segments are adjacent, and the output nowhere has the
closing marker `</span>` directly followed by `<span`. -/
theorem marked_runs_maximal (A B : List Char) (hA : A.length < INT_MAX)
    (hB : B.length < INT_MAX) :
    (∃ segs, old_segments A B = some segs ∧
      render_old_with_deletions A B = some (render_segs del_open segs) ∧
      (∀ s ∈ segs, s.marked = true → s.text ≠ []) ∧
      List.Chain' (fun s t : Seg => ¬ (s.marked = true ∧ t.marked = true)) segs ∧
      ∀ pre suf, render_segs del_open segs ≠ pre ++ ("</span>".data ++ "<span".data) ++ suf) ∧
    (∃ segs, new_segments A B = some segs ∧
      render_new_with_insertions A B = some (render_segs ins_open segs) ∧
      (∀ s ∈ segs, s.marked = true → s.text ≠ []) ∧
      List.Chain' (fun s t : Seg => ¬ (s.marked = true ∧ t.marked = true)) segs ∧
      ∀ pre suf, render_segs ins_open segs ≠ pre ++ ("</span>".data ++ "<span".data) ++ suf) := by
  have key : ∀ (tag ln : List Char) (idxs : List Nat), ln.length < INT_MAX →
      (tag = del_open ∨ tag = ins_open) →
      List.Pairwise (fun x y => x < y) idxs → (∀ k ∈ idxs, 0 ≤ k ∧ k < ln.length) →
      (∀ s ∈ segments ln idxs 0, s.marked = true → s.text ≠ []) ∧
      List.Chain' (fun s t : Seg => ¬ (s.marked = true ∧ t.marked = true))
        (segments ln idxs 0) ∧
      ∀ pre suf, render_segs tag (segments ln idxs 0)
        ≠ pre ++ ("</span>".data ++ "<span".data) ++ suf := by
    intro tag ln idxs hl htag hp hb
    have hne := segments_text_ne_nil ln hl idxs 0 hp hb
    have hch := segments_chain ln idxs 0
    refine ⟨fun s hs _ => hne s hs, hch, ?_⟩
    intro pre suf he
    have hc := render_segs_chain tag htag _ hne hch
    rw [he, List.chain'_append, List.chain'_append] at hc
    have hbad := hc.1.2.1
    revert hbad
    show ¬ List.Chain' no_gt_lt ['<', '/', 's', 'p', 'a', 'n', '>', '<', 's', 'p', 'a', 'n']
    simp [List.chain'_cons, no_gt_lt]
  constructor
  · obtain ⟨k1, k2, k3⟩ := key del_open A _ hA (Or.inl rfl) (align_fst_spec A B).1
      (align_fst_spec A B).2
    exact ⟨_, old_segments_eq A B hA hB, render_old_eq_segments A B hA hB, k1, k2, k3⟩
  · obtain ⟨k1, k2, k3⟩ := key ins_open B _ hB (Or.inr rfl) (align_snd_spec A B).1
      (align_snd_spec A B).2
    exact ⟨_, new_segments_eq A B hA hB, render_new_eq_segments A B hA hB, k1, k2, k3⟩

/-- The amended C6 at the lines `cat` and `cot`. -/
theorem marked_runs_maximal_witness :
    (∃ segs, old_segments "cat".data "cot".data = some segs ∧
      render_old_with_deletions "cat".data "cot".data = some (render_segs del_open segs) ∧
      (∀ s ∈ segs, s.marked = true → s.text ≠ []) ∧
      List.Chain' (fun s t : Seg => ¬ (s.marked = true ∧ t.marked = true)) segs ∧
      ∀ pre suf, render_segs del_open segs ≠ pre ++ ("</span>".data ++ "<span".data) ++ suf) ∧
    (∃ segs, new_segments "cat".data "cot".data = some segs ∧
      render_new_with_insertions "cat".data "cot".data = some (render_segs ins_open segs) ∧
      (∀ s ∈ segs, s.marked = true → s.text ≠ []) ∧
      List.Chain' (fun s t : Seg => ¬ (s.marked = true ∧ t.marked = true)) segs ∧
      ∀ pre suf, render_segs ins_open segs ≠ pre ++ ("</span>".data ++ "<span".data) ++ suf) :=
  marked_runs_maximal "cat".data "cot".data (by decide) (by decide)

/-- C7: for the old line `cat` and the new line `cot` the match list is
`[(0,0), (2,2)]`, the old-side rendering is `c<span class='del'>a</span>t`
and the new-side rendering is `c<span class='ins'>o</span>t`. -/
theorem cat_cot :
    lcs_backtrack "cat".data "cot".data = some [(0, 0), (2, 2)] ∧
    render_old_with_deletions "cat".data "cot".data
      = some "c<span class='del'>a</span>t".data ∧
    render_new_with_insertions "cat".data "cot".data
      = some "c<span class='ins'>o</span>t".data ∧
    old_segments "cat".data "cot".data = some [⟨false, ['c']⟩, ⟨true, ['a']⟩, ⟨false, ['t']⟩] ∧
    new_segments "cat".data "cot".data = some [⟨false, ['c']⟩, ⟨true, ['o']⟩, ⟨false, ['t']⟩] := by
  refine ⟨by decide, by decide, by decide, ?_, ?_⟩
  · rfl
  · rfl

/-- C8: `html_escape s` is the in-order concatenation of the replacements of
the characters of `s`, the replacement of `&`, `<`, `>`, `"` being `&amp;`,
`&lt;`, `&gt;`, `&quot;` and that of any other character the character
itself; so `html_escape "" = ""`, `html_escape (s ++ t) = html_escape s ++
html_escape t` and `|html_escape s| ≥ |s|`. -/
theorem html_escape_spec (s t : List Char) :
    html_escape s = s.flatMap escape_char ∧
    escape_char '&' = "&amp;".data ∧ escape_char '<' = "&lt;".data ∧
    escape_char '>' = "&gt;".data ∧ escape_char '"' = "&quot;".data ∧
    (∀ c, c ≠ '&' → c ≠ '<' → c ≠ '>' → c ≠ '"' → escape_char c = [c]) ∧
    html_escape [] = [] ∧
    html_escape (s ++ t) = html_escape s ++ html_escape t ∧
    s.length ≤ (html_escape s).length :=
  ⟨html_escape_eq_flatMap s, by decide, by decide, by decide, by decide,
    escape_char_of_safe, rfl, html_escape_append s t, length_le_html_escape s⟩

/-- C9: `html_escape s` contains none of `<`, `>`, `"`, and every `&` in it
starts one of the entities `&amp;`, `&lt;`, `&gt;`, `&quot;`. -/
theorem html_escape_markup_safe (s : List Char) :
    '<' ∉ html_escape s ∧ '>' ∉ html_escape s ∧ '"' ∉ html_escape s ∧
    ∀ pre suf, html_escape s = pre ++ '&' :: suf →
      ∃ e ∈ ["&amp;".data, "&lt;".data, "&gt;".data, "&quot;".data], e <+: '&' :: suf :=
  ⟨fun h => (html_escape_safe s _ h).1 rfl, fun h => (html_escape_safe s _ h).2.1 rfl,
    fun h => (html_escape_safe s _ h).2.2 rfl, html_escape_amp s⟩

/-- C10: a string with none of the characters `&`, `<`, `>`, `"` is escaped
to itself. -/
theorem html_escape_fixed (s : List Char)
    (h : '&' ∉ s ∧ '<' ∉ s ∧ '>' ∉ s ∧ '"' ∉ s) : html_escape s = s := by
  induction s with
  | nil => rfl
  | cons c s ih =>
    simp only [List.mem_cons, not_or] at h
    rw [html_escape_cons, escape_char_of_safe c (Ne.symm h.1.1) (Ne.symm h.2.1.1)
      (Ne.symm h.2.2.1.1) (Ne.symm h.2.2.2.1), ih ⟨h.1.2, h.2.1.2, h.2.2.1.2, h.2.2.2.2⟩]
    rfl

/-- C10 at the string `cat`, which has none of the four characters. -/
theorem html_escape_fixed_witness :
    ('&' ∉ "cat".data ∧ '<' ∉ "cat".data ∧ '>' ∉ "cat".data ∧ '"' ∉ "cat".data) ∧
    html_escape "cat".data = "cat".data :=
  ⟨by decide, html_escape_fixed "cat".data (by decide)⟩

/-! ## The row loop -/

theorem row_loop_eq_rows_from (old new : List (List Char)) :
    ∀ (fuel i j : Nat) (rows : List Row), i ≤ old.length → j ≤ new.length →
      (old.length - i) + (new.length - j) ≤ fuel →
      row_loop old new fuel i j rows
        = (rows_from (old.drop i) (new.drop j)).map (fun rs => rows ++ rs) := by
  intro fuel
  induction fuel with
  | zero =>
    intro i j rows hi hj hf
    rw [row_loop]
    have hc : ¬ (i < old.length ∨ j < new.length) := by omega
    rw [if_neg hc, List.drop_eq_nil_of_le (by omega), List.drop_eq_nil_of_le (by omega)]
    simp [rows_from]
  | succ fuel ih =>
    intro i j rows hi hj hf
    rw [row_loop]
    by_cases hi1 : i < old.length <;> by_cases hj1 : j < new.length
    · rw [if_pos (Or.inl hi1)]
      simp only [hi1, hj1, and_self, if_true, List.getElem?_eq_getElem]
      rw [List.drop_eq_getElem_cons hi1, List.drop_eq_getElem_cons hj1, rows_from]
      split_ifs with heq
      · rw [ih _ _ _ (by omega) (by omega) (by omega)]
        simp [Option.map_map, Function.comp_def]
      · cases h1 : render_old_with_deletions old[i] new[j] with
        | none => rfl
        | some l =>
          cases h2 : render_new_with_insertions old[i] new[j] with
          | none => rfl
          | some r =>
            simp only []
            rw [ih _ _ _ (by omega) (by omega) (by omega)]
            simp [Option.map_map, Function.comp_def]
    · rw [if_pos (Or.inl hi1)]
      simp only [hi1, hj1, and_false, if_false, if_true, List.getElem?_eq_getElem]
      rw [List.drop_eq_getElem_cons hi1, List.drop_eq_nil_of_le (by omega : new.length ≤ j),
        rows_from, ih _ _ _ (by omega) (by omega) (by omega),
        List.drop_eq_nil_of_le (by omega : new.length ≤ j)]
      simp [Option.map_map, Function.comp_def]
    · rw [if_pos (Or.inr hj1)]
      simp only [hi1, hj1, false_and, if_false, if_true, List.getElem?_eq_getElem]
      rw [List.drop_eq_getElem_cons hj1, List.drop_eq_nil_of_le (by omega : old.length ≤ i),
        rows_from, ih _ _ _ (by omega) (by omega) (by omega),
        List.drop_eq_nil_of_le (by omega : old.length ≤ i)]
      simp [Option.map_map, Function.comp_def]
    · have hc : ¬ (i < old.length ∨ j < new.length) := by omega
      rw [if_neg hc, List.drop_eq_nil_of_le (by omega), List.drop_eq_nil_of_le (by omega)]
      simp [rows_from]

theorem main_rows_eq_rows_from (old new : List (List Char)) :
    main_rows old new = rows_from old new := by
  unfold main_rows
  rw [row_loop_eq_rows_from old new _ 0 0 [] (Nat.zero_le _) (Nat.zero_le _) (by omega)]
  simp

theorem row_at_isSome (o nw : Option (List Char)) (h : o.isSome ∨ nw.isSome)
    (hb : ∀ x y, o = some x → nw = some y → x ≠ y →
      x.length < INT_MAX ∧ y.length < INT_MAX) :
    ∃ r, row_at o nw = some r := by
  rcases o with _ | o <;> rcases nw with _ | nw
  · simp at h
  · exact ⟨_, rfl⟩
  · exact ⟨_, rfl⟩
  · simp only [row_at]
    split_ifs with heq
    · exact ⟨_, rfl⟩
    · obtain ⟨h1, h2⟩ := hb o nw rfl rfl heq
      rw [render_old_eq_segments o nw h1 h2, render_new_eq_segments o nw h1 h2]
      exact ⟨_, rfl⟩

theorem rows_from_spec : ∀ (n : Nat) (old new : List (List Char)),
    old.length + new.length ≤ n →
    (∀ (k : Nat) (o nw : List Char), old[k]? = some o → new[k]? = some nw → o ≠ nw →
      o.length < INT_MAX ∧ nw.length < INT_MAX) →
    ∃ rows, rows_from old new = some rows ∧ rows.length = max old.length new.length ∧
      ∀ k, k < max old.length new.length → rows[k]? = row_at old[k]? new[k]? := by
  intro n
  induction n with
  | zero =>
    intro old new h _
    have h1 : old = [] := List.length_eq_zero.mp (by omega)
    have h2 : new = [] := List.length_eq_zero.mp (by omega)
    subst h1 h2
    exact ⟨[], by rw [rows_from], rfl, fun k hk => by simp at hk⟩
  | succ n ih =>
    intro old new h hP
    rcases old with _ | ⟨o, os⟩ <;> rcases new with _ | ⟨nw, ns⟩
    · exact ⟨[], by rw [rows_from], rfl, fun k hk => by simp at hk⟩
    · simp only [List.length_cons, List.length_nil] at h
      obtain ⟨rs, h1, h2, h3⟩ := ih [] ns (by simp only [List.length_nil]; omega)
        (fun k x y hx _ _ => by simp at hx)
      refine ⟨_ :: rs, by rw [rows_from, h1]; rfl, by simp [h2], ?_⟩
      intro k hk
      rcases k with _ | k
      · simp [row_at]
      · simp only [List.length_cons, List.length_nil] at hk
        have := h3 k (by simp only [List.length_nil]; omega)
        simpa using this
    · simp only [List.length_cons, List.length_nil] at h
      obtain ⟨rs, h1, h2, h3⟩ := ih os [] (by simp only [List.length_nil]; omega)
        (fun k x y _ hy _ => by simp at hy)
      refine ⟨_ :: rs, by rw [rows_from, h1]; rfl, by simp [h2], ?_⟩
      intro k hk
      rcases k with _ | k
      · simp [row_at]
      · simp only [List.length_cons, List.length_nil] at hk
        have := h3 k (by simp only [List.length_nil]; omega)
        simpa using this
    · simp only [List.length_cons] at h
      obtain ⟨rs, h1, h2, h3⟩ := ih os ns (by omega)
        (fun k x y hx hy hne => hP (k + 1) x y (by simpa using hx) (by simpa using hy) hne)
      obtain ⟨r, hr⟩ := row_at_isSome (some o) (some nw) (Or.inl rfl)
        (fun x y hx hy hne => by
          cases hx
          cases hy
          exact hP 0 _ _ List.getElem?_cons_zero List.getElem?_cons_zero hne)
      refine ⟨r :: rs, ?_, by simp only [List.length_cons, h2]; omega, ?_⟩
      · simp only [row_at] at hr
        rw [rows_from]
        split_ifs at hr ⊢ with heq
        · rw [h1]; simpa using hr
        · cases e1 : render_old_with_deletions o nw <;>
            cases e2 : render_new_with_insertions o nw <;> simp only [e1, e2] at hr ⊢
          · simp at hr
          · simp at hr
          · simp at hr
          · rw [h1]; simpa using hr
      · intro k hk
        rcases k with _ | k
        · simpa using hr.symm
        · simp only [List.length_cons] at hk
          have := h3 k (by omega)
          simpa using this

/-- With an old line of `INT_MAX` characters against a different new line the
row loop does not get past the renderers. -/
theorem main_rows_of_length (A : List Char) (rest : List (List Char))
    (h : A.length = INT_MAX) : main_rows (A :: rest) [[]] = none := by
  have hne : ¬ A = [] := by
    intro e
    rw [e] at h
    exact absurd h (by decide)
  rw [main_rows_eq_rows_from, rows_from, if_neg hne,
    (render_of_length A [] (Or.inl h)).1]

/-- C11, as stated, fails for an old line of `INT_MAX` characters against an
empty new line: the two lines differ, the renderers do not return, and the
row loop writes no row where the claim counts one. -/
theorem main_rows_absent_at_int_max :
    (List.replicate INT_MAX 'a').length = INT_MAX ∧
    max [List.replicate INT_MAX 'a'].length [([] : List Char)].length = 1 ∧
    main_rows [List.replicate INT_MAX 'a'] [[]] = none :=
  ⟨length_long_line, rfl, main_rows_of_length _ _ length_long_line⟩

/-- C11, amended: when the lines of every differing pair `old[k]`, `new[k]`
are shorter than `INT_MAX`, the row loop writes exactly `max |old| |new|` rows, and row `k` is
built from `old[k]` and `new[k]` alone: an unchanged row with both cells
`html_escape old[k]` when both lines are there and equal, a changed row with
the two renderings of the pair when both are there and differ, an old-only
row with an empty right cell when only `old[k]` is there, a new-only row with
an empty left cell when only `new[k]` is there.  For the old lines `a`, `b`
and the new lines `a`, `c`, `d` the rows are: unchanged `a`/`a`, changed with
`b` and `c` both fully marked, new-only `d`. -/
theorem main_rows_positional (old new : List (List Char))
    (hP : ∀ (k : Nat) (o nw : List Char), old[k]? = some o → new[k]? = some nw → o ≠ nw →
      o.length < INT_MAX ∧ nw.length < INT_MAX) :
    (∃ rows : List Row, main_rows old new = some rows ∧
      rows.length = max old.length new.length ∧
      (∀ (k : Nat) (o nw : List Char), old[k]? = some o → new[k]? = some nw → o = nw →
        rows[k]? = some (Row.mk RowKind.unchanged (html_escape o) (html_escape o))) ∧
      (∀ (k : Nat) (o nw : List Char), old[k]? = some o → new[k]? = some nw → o ≠ nw →
        ∃ l r, render_old_with_deletions o nw = some l ∧
          render_new_with_insertions o nw = some r ∧
          rows[k]? = some (Row.mk RowKind.changed l r)) ∧
      (∀ (k : Nat) (o : List Char), old[k]? = some o → new[k]? = none →
        rows[k]? = some (Row.mk RowKind.old_only (html_escape o) [])) ∧
      (∀ (k : Nat) (nw : List Char), old[k]? = none → new[k]? = some nw →
        rows[k]? = some (Row.mk RowKind.new_only [] (html_escape nw)))) ∧
    main_rows ["a".data, "b".data] ["a".data, "c".data, "d".data]
      = some [⟨RowKind.unchanged, "a".data, "a".data⟩,
          ⟨RowKind.changed, "<span class='del'>b</span>".data,
            "<span class='ins'>c</span>".data⟩,
          ⟨RowKind.new_only, [], "d".data⟩] := by
  refine ⟨?_, by decide⟩
  obtain ⟨rows, h1, h2, h3⟩ := rows_from_spec _ old new (le_refl _) hP
  refine ⟨rows, by rw [main_rows_eq_rows_from, h1], h2, ?_, ?_, ?_, ?_⟩
  · intro k o nw ho hn heq
    have hk : k < max old.length new.length :=
      lt_max_of_lt_left (List.getElem?_eq_some.mp ho).1
    rw [h3 k hk, ho, hn, heq]
    simp [row_at]
  · intro k o nw ho hn hne
    have hk : k < max old.length new.length :=
      lt_max_of_lt_left (List.getElem?_eq_some.mp ho).1
    obtain ⟨b1, b2⟩ := hP k o nw ho hn hne
    refine ⟨_, _, render_old_eq_segments o nw b1 b2, render_new_eq_segments o nw b1 b2, ?_⟩
    rw [h3 k hk, ho, hn]
    simp [row_at, hne, render_old_eq_segments o nw b1 b2, render_new_eq_segments o nw b1 b2]
  · intro k o ho hn
    have hk : k < max old.length new.length :=
      lt_max_of_lt_left (List.getElem?_eq_some.mp ho).1
    rw [h3 k hk, ho, hn]
    rfl
  · intro k nw ho hn
    have hk : k < max old.length new.length :=
      lt_max_of_lt_right (List.getElem?_eq_some.mp hn).1
    rw [h3 k hk, ho, hn]
    rfl

/-- The amended C11 at the old lines `a`, `b` and the new lines `a`, `c`, `d`. -/
theorem main_rows_positional_witness :
    (∃ rows : List Row, main_rows ["a".data, "b".data] ["a".data, "c".data, "d".data] = some rows ∧
      rows.length = max ["a".data, "b".data].length ["a".data, "c".data, "d".data].length ∧
      (∀ (k : Nat) (o nw : List Char), ["a".data, "b".data][k]? = some o → ["a".data, "c".data, "d".data][k]? = some nw → o = nw →
        rows[k]? = some (Row.mk RowKind.unchanged (html_escape o) (html_escape o))) ∧
      (∀ (k : Nat) (o nw : List Char), ["a".data, "b".data][k]? = some o → ["a".data, "c".data, "d".data][k]? = some nw → o ≠ nw →
        ∃ l r, render_old_with_deletions o nw = some l ∧
          render_new_with_insertions o nw = some r ∧
          rows[k]? = some (Row.mk RowKind.changed l r)) ∧
      (∀ (k : Nat) (o : List Char), ["a".data, "b".data][k]? = some o → ["a".data, "c".data, "d".data][k]? = none →
        rows[k]? = some (Row.mk RowKind.old_only (html_escape o) [])) ∧
      (∀ (k : Nat) (nw : List Char), ["a".data, "b".data][k]? = none → ["a".data, "c".data, "d".data][k]? = some nw →
        rows[k]? = some (Row.mk RowKind.new_only [] (html_escape nw)))) ∧
    main_rows ["a".data, "b".data] ["a".data, "c".data, "d".data]
      = some [⟨RowKind.unchanged, "a".data, "a".data⟩,
          ⟨RowKind.changed, "<span class='del'>b</span>".data,
            "<span class='ins'>c</span>".data⟩,
          ⟨RowKind.new_only, [], "d".data⟩] :=
  main_rows_positional ["a".data, "b".data] ["a".data, "c".data, "d".data] (by
    intro k o nw ho hn _
    rcases k with _ | _ | k
    · simp only [List.getElem?_cons_zero, Option.some.injEq] at ho hn
      subst ho hn
      decide
    · simp only [List.getElem?_cons_succ, List.getElem?_cons_zero, Option.some.injEq] at ho hn
      subst ho hn
      decide
    · simp at ho)

/-- C12, as stated, fails: the only row for the old line `a` and no new line
is an old-only row whose left cell is `a`, not `a` inside a deletion span;
likewise the row for no old line and the new line `a`.  And after an old
line of `INT_MAX` characters paired with a different new line no trailing
row is written at all: the renderers do not return for that pair. -/
theorem trailing_row_not_marked :
    (main_rows ["a".data] [] = some [⟨RowKind.old_only, "a".data, []⟩] ∧
      "a".data ≠ del_open ++ html_escape "a".data ++ span_close ∧
      main_rows [] ["a".data] = some [⟨RowKind.new_only, [], "a".data⟩] ∧
      "a".data ≠ ins_open ++ html_escape "a".data ++ span_close) ∧
    (List.replicate INT_MAX 'a').length = INT_MAX ∧
    main_rows [List.replicate INT_MAX 'a', "b".data] [[]] = none :=
  ⟨by decide, length_long_line, main_rows_of_length _ _ length_long_line⟩

/-- C12, amended: when the lines of every differing pair `old[i]`, `new[i]`
are shorter than `INT_MAX`, so that the loop gets to the trailing rows, at a
trailing position `min |old| |new| ≤ k < max |old| |new|` the row holds the remaining line escaped and unmarked: an old-only row has
the left cell `html_escape old[k]` and an empty right cell, and is written as
a cell of class `removed` around that text and an empty cell; a new-only row
has the right cell `html_escape new[k]` and an empty left cell, and is
written as an empty cell and a cell of class `added` around that text. -/
theorem trailing_rows_plain (old new : List (List Char)) (k : Nat)
    (hP : ∀ (i : Nat) (o nw : List Char), old[i]? = some o → new[i]? = some nw → o ≠ nw →
      o.length < INT_MAX ∧ nw.length < INT_MAX)
    (h1 : min old.length new.length ≤ k) (h2 : k < max old.length new.length) :
    ∃ (rows : List Row) (r : Row), main_rows old new = some rows ∧ rows[k]? = some r ∧
      ((∃ o, old[k]? = some o ∧ new[k]? = none ∧
          r = ⟨RowKind.old_only, html_escape o, []⟩ ∧ '<' ∉ r.left ∧
          r.html = "<tr><td class='removed'>".data ++ html_escape o
            ++ "</td><td></td></tr>\n".data) ∨
       (∃ nw, old[k]? = none ∧ new[k]? = some nw ∧
          r = ⟨RowKind.new_only, [], html_escape nw⟩ ∧ '<' ∉ r.right ∧
          r.html = "<tr><td></td><td class='added'>".data ++ html_escape nw
            ++ "</td></tr>\n".data)) := by
  obtain ⟨rows, e1, _, e3⟩ := rows_from_spec _ old new (le_refl _) hP
  rw [← main_rows_eq_rows_from] at e1
  rcases Nat.lt_or_ge k old.length with hk | hk
  · have hn : new.length ≤ k := by
      rcases Nat.le_total old.length new.length with h | h
      · rw [min_eq_left h] at h1; omega
      · rw [min_eq_right h] at h1; exact h1
    refine ⟨rows, ⟨RowKind.old_only, html_escape old[k], []⟩, e1, ?_, Or.inl ⟨old[k],
      List.getElem?_eq_getElem hk, List.getElem?_eq_none hn, rfl,
      fun h => (html_escape_safe _ _ h).1 rfl, rfl⟩⟩
    rw [e3 k h2, List.getElem?_eq_getElem hk, List.getElem?_eq_none hn]
    rfl
  · have hn : k < new.length := by
      rcases Nat.le_total old.length new.length with h | h
      · rw [max_eq_right h] at h2; exact h2
      · rw [max_eq_left h] at h2; omega
    refine ⟨rows, ⟨RowKind.new_only, [], html_escape new[k]⟩, e1, ?_, Or.inr ⟨new[k],
      List.getElem?_eq_none hk, List.getElem?_eq_getElem hn, rfl,
      fun h => (html_escape_safe _ _ h).1 rfl, rfl⟩⟩
    rw [e3 k h2, List.getElem?_eq_getElem hn, List.getElem?_eq_none hk]
    rfl

/-- The amended C12 at the old line `a` and no new line, position 0. -/
theorem trailing_rows_plain_witness :
    ∃ (rows : List Row) (r : Row), main_rows ["a".data] [] = some rows ∧
      rows[0]? = some r ∧
      ((∃ o, ["a".data][0]? = some o ∧ ([] : List (List Char))[0]? = none ∧
          r = ⟨RowKind.old_only, html_escape o, []⟩ ∧ '<' ∉ r.left ∧
          r.html = "<tr><td class='removed'>".data ++ html_escape o
            ++ "</td><td></td></tr>\n".data) ∨
       (∃ nw, ["a".data][0]? = none ∧ ([] : List (List Char))[0]? = some nw ∧
          r = ⟨RowKind.new_only, [], html_escape nw⟩ ∧ '<' ∉ r.right ∧
          r.html = "<tr><td></td><td class='added'>".data ++ html_escape nw
            ++ "</td></tr>\n".data)) :=
  trailing_rows_plain ["a".data] [] 0 (fun i o nw _ hn _ => by simp at hn)
    (by decide) (by decide)

/-- C13, as stated, fails: with four arguments and a first input that does
not open `main` returns 1, and with three arguments it returns 1 as well, so
the two exit statuses are not different. -/
theorem input_failure_same_status :
    (main 4 false true true).status = 1 ∧ (main 3 true true true).status = 1 ∧
    ¬ ((main 4 false true true).status ≠ (main 3 true true true).status) := by
  decide

/-- C13, amended: with exactly four arguments and an input file that does not
open, `main` writes a message to `std::cerr` and returns the nonzero exit
status 1, which is also the exit status of every run with a wrong argument
count. -/
theorem input_failure_status (f1_open f2_open out_open : Bool)
    (h : f1_open = false ∨ f2_open = false) :
    (main 4 f1_open f2_open out_open).status = 1 ∧
    (main 4 f1_open f2_open out_open).status ≠ 0 ∧
    (main 4 f1_open f2_open out_open).cerr = true ∧
    ∀ (argc : Nat) (a b c : Bool), argc ≠ 4 →
      (main argc a b c).status = (main 4 f1_open f2_open out_open).status := by
  have h4 : (main 4 f1_open f2_open out_open).status = 1 ∧
      (main 4 f1_open f2_open out_open).cerr = true := by
    rcases h with h | h
    · subst h; cases f2_open <;> cases out_open <;> decide
    · subst h; cases f1_open <;> cases out_open <;> decide
  refine ⟨h4.1, by rw [h4.1]; decide, h4.2, ?_⟩
  intro argc a b c hne
  rw [h4.1]
  simp [main, hne]

/-- The amended C13 for a first input that does not open. -/
theorem input_failure_status_witness :
    (main 4 false true true).status = 1 ∧
    (main 4 false true true).status ≠ 0 ∧
    (main 4 false true true).cerr = true ∧
    ∀ (argc : Nat) (a b c : Bool), argc ≠ 4 →
      (main argc a b c).status = (main 4 false true true).status :=
  input_failure_status false true true (Or.inl rfl)

/-- C14 on the code: `main` returns a nonzero status, and writes to
`std::cerr`, exactly when the argument count is not 4 or one of the two
inputs does not open; whether the output opens has no part in it, and with
both inputs open and an output that does not open `main` returns 0, reports
`Diff saved` and writes no document. -/
theorem main_failure_surface (argc : Nat) (f1_open f2_open out_open : Bool) :
    ((main argc f1_open f2_open out_open).status ≠ 0
      ↔ argc ≠ 4 ∨ f1_open = false ∨ f2_open = false) ∧
    ((main argc f1_open f2_open out_open).cerr = true
      ↔ argc ≠ 4 ∨ f1_open = false ∨ f2_open = false) ∧
    main 4 true true false = ⟨0, false, true, false⟩ := by
  refine ⟨?_, ?_, by decide⟩
  · by_cases h : argc = 4
    · subst h
      cases f1_open <;> cases f2_open <;> cases out_open <;> decide
    · simp [main, h]
  · by_cases h : argc = 4
    · subst h
      cases f1_open <;> cases f2_open <;> cases out_open <;> decide
    · simp [main, h]

/-! ## The `int` range -/

theorem to_int_of_le (x : Nat) (h : x ≤ INT_MAX) : to_int x = some x := by
  simp [to_int, h]

theorem lcs_backtrack_int_of_lt (a b : List Char) (ha : a.length < INT_MAX)
    (hb : b.length < INT_MAX) : lcs_backtrack_int a b = lcs_backtrack a b := by
  unfold lcs_backtrack_int
  rw [to_int_of_le _ (by omega), to_int_of_le _ (by omega)]
  simp only
  rw [to_int_of_le _ (by omega), to_int_of_le _ (by omega)]

theorem lcs_backtrack_int_of_length (a b : List Char) (h : a.length = INT_MAX) :
    lcs_backtrack_int a b = none := by
  unfold lcs_backtrack_int to_int
  rw [h]
  by_cases hb : b.length ≤ INT_MAX
  · simp only [le_refl, if_true, hb]
    have : ¬ (INT_MAX + 1 ≤ INT_MAX) := by omega
    simp only [this, if_false]
  · simp only [le_refl, if_true, hb, if_false]

/-! ## The reference length is the length of a longest common subsequence -/

theorem lcsLen_attained (xs ys : List Char) :
    ∃ s, List.Sublist s xs ∧ List.Sublist s ys ∧ s.length = lcsLen xs ys := by
  refine ⟨matched_old xs (align xs ys), matched_old_align _ xs ys (le_refl _), ?_, ?_⟩
  · rw [← matched_new_eq_old]
    exact matched_new_align _ xs ys (le_refl _)
  · rw [length_matched_old, length_align _ xs ys (le_refl _)]

/-- C15, as stated, fails at the largest length that fits in `int`: for a
line of `INT_MAX` characters the table size `n+1` is not representable, and
`lcs_backtrack` does not return. -/
theorem core_not_total_at_int_max :
    (List.replicate INT_MAX 'a').length ≤ INT_MAX ∧
    ([] : List Char).length ≤ INT_MAX ∧
    lcs_backtrack_int (List.replicate INT_MAX 'a') [] = none :=
  ⟨by rw [List.length_replicate], Nat.zero_le _,
    lcs_backtrack_int_of_length _ _ (List.length_replicate _ _)⟩

/-- C15, amended: for lines whose lengths are below `INT_MAX`, so that the
table sizes `n+1` and `m+1` fit in `int`, the three functions return: no
access to `dp`, to a line or to `matches` and no `substr` is out of range,
and the loops end; `lcs_backtrack` returns the empty list when a line is
empty; every cell of the table can be read and holds a value that fits in
`int`, and so does every index of a match and its successor. -/
theorem core_total (A B : List Char) (hA : A.length < INT_MAX) (hB : B.length < INT_MAX) :
    ∃ r dp o nw,
      lcs_backtrack_int A B = some r ∧ lcs_backtrack A B = some r ∧
      fill_table A B = some dp ∧
      render_old_with_deletions_int A B = some o ∧
      render_old_with_deletions A B = some o ∧
      render_new_with_insertions_int A B = some nw ∧
      render_new_with_insertions A B = some nw ∧
      (A = [] ∨ B = [] → r = []) ∧
      (∀ i j, i ≤ A.length → j ≤ B.length → ∃ v, dp_get dp i j = some v ∧ v ≤ INT_MAX) ∧
      (∀ p ∈ r, p.1 + 1 ≤ INT_MAX ∧ p.2 + 1 ≤ INT_MAX) := by
  obtain ⟨dp, hdp, hcell⟩ := fill_table_spec A B hA hB
  have hr := lcs_backtrack_eq_align A B hA hB
  have hri := lcs_backtrack_int_of_lt A B hA hB
  refine ⟨align A B, dp, _, _, by rw [hri, hr], hr, hdp, ?_, render_old_eq_segments A B hA hB, ?_,
    render_new_eq_segments A B hA hB, ?_, ?_, ?_⟩
  · unfold render_old_with_deletions_int
    rw [hri, hr, to_int_of_le _ (by omega)]
    exact render_old_eq_segments A B hA hB
  · unfold render_new_with_insertions_int
    rw [hri, hr, to_int_of_le _ (by omega)]
    exact render_new_eq_segments A B hA hB
  · rintro (h | h) <;> subst h <;> simp
  · intro i j hi hj
    refine ⟨_, hcell i j hi hj, ?_⟩
    have h1 := lcsLen_le_left (A.drop i) (B.drop j)
    rw [List.length_drop] at h1
    omega
  · intro p hp
    obtain ⟨c, h1, h2⟩ := align_mem _ A B (le_refl _) p hp
    have := (List.getElem?_eq_some.mp h1).1
    have := (List.getElem?_eq_some.mp h2).1
    omega

/-- The amended C15 at the lines `cat` and `cot`. -/
theorem core_total_witness :
    ∃ r dp o nw,
      lcs_backtrack_int "cat".data "cot".data = some r ∧
      lcs_backtrack "cat".data "cot".data = some r ∧
      fill_table "cat".data "cot".data = some dp ∧
      render_old_with_deletions_int "cat".data "cot".data = some o ∧
      render_old_with_deletions "cat".data "cot".data = some o ∧
      render_new_with_insertions_int "cat".data "cot".data = some nw ∧
      render_new_with_insertions "cat".data "cot".data = some nw ∧
      ("cat".data = [] ∨ "cot".data = [] → r = []) ∧
      (∀ i j, i ≤ "cat".data.length → j ≤ "cot".data.length →
        ∃ v, dp_get dp i j = some v ∧ v ≤ INT_MAX) ∧
      (∀ p ∈ r, p.1 + 1 ≤ INT_MAX ∧ p.2 + 1 ≤ INT_MAX) :=
  core_total "cat".data "cot".data (by decide) (by decide)

/-- C16, as stated, fails for a line of `INT_MAX` characters: the size `n+1`
of the table overflows `int`, no table is built, and there is no cell
`dp[i][j]` to hold a length. -/
theorem table_absent_at_int_max :
    (List.replicate INT_MAX 'a').length = INT_MAX ∧
    fill_table (List.replicate INT_MAX 'a') [] = none ∧
    ¬ ∃ dp, fill_table (List.replicate INT_MAX 'a') [] = some dp := by
  refine ⟨length_long_line, fill_table_of_length _ _ (Or.inl length_long_line), ?_⟩
  rw [fill_table_of_length _ _ (Or.inl length_long_line)]
  rintro ⟨dp, hdp⟩
  cases hdp

/-- C16, amended: for lines shorter than `INT_MAX`, after the fill the cell `dp[i][j]`, for `i ≤ n` and `j ≤ m`, is the
length of a longest common subsequence of the suffixes `A[i..)` and
`B[j..)`: some common subsequence has that length and none is longer; the
cells `dp[n][j]` and `dp[i][m]` are 0. -/
theorem table_cell_is_lcs (A B : List Char) (i j : Nat) (hA : A.length < INT_MAX)
    (hB : B.length < INT_MAX) (hi : i ≤ A.length) (hj : j ≤ B.length) :
    ∃ dp v, fill_table A B = some dp ∧ dp_get dp i j = some v ∧
      (∃ s, List.Sublist s (A.drop i) ∧ List.Sublist s (B.drop j) ∧ s.length = v) ∧
      (∀ s, List.Sublist s (A.drop i) → List.Sublist s (B.drop j) → s.length ≤ v) ∧
      dp_get dp A.length j = some 0 ∧ dp_get dp i B.length = some 0 := by
  obtain ⟨dp, hdp, hcell⟩ := fill_table_spec A B hA hB
  refine ⟨dp, _, hdp, hcell i j hi hj, lcsLen_attained _ _, lcsLen_optimal _ _, ?_, ?_⟩
  · rw [hcell A.length j (le_refl _) hj, List.drop_length]
    rfl
  · rw [hcell i B.length hi (le_refl _), List.drop_length, lcsLen_nil_right]

/-- The amended C16 at the lines `cat` and `cot`, cell `dp[1][1]`. -/
theorem table_cell_is_lcs_witness :
    ∃ dp v, fill_table "cat".data "cot".data = some dp ∧ dp_get dp 1 1 = some v ∧
      (∃ s, List.Sublist s ("cat".data.drop 1) ∧ List.Sublist s ("cot".data.drop 1)
        ∧ s.length = v) ∧
      (∀ s, List.Sublist s ("cat".data.drop 1) → List.Sublist s ("cot".data.drop 1)
        → s.length ≤ v) ∧
      dp_get dp "cat".data.length 1 = some 0 ∧ dp_get dp 1 "cot".data.length = some 0 :=
  table_cell_is_lcs "cat".data "cot".data 1 1 (by decide) (by decide) (by decide) (by decide)

/-- C17, as stated, fails for a line of `INT_MAX` characters: against the
empty line `lcs_backtrack` does not return `[]`, it does not return. -/
theorem lcs_backtrack_empty_line_at_int_max :
    (List.replicate INT_MAX 'a').length = INT_MAX ∧
    lcs_backtrack (List.replicate INT_MAX 'a') [] = none ∧
    lcs_backtrack (List.replicate INT_MAX 'a') [] ≠ some [] := by
  refine ⟨length_long_line, lcs_backtrack_of_length _ _ (Or.inl length_long_line), ?_⟩
  rw [lcs_backtrack_of_length _ _ (Or.inl length_long_line)]
  intro h
  cases h

/-- C17, amended: for lines shorter than `INT_MAX`, `lcs_backtrack` is the
recursive reference alignment `align`: it returns `[]` when a line is empty;
for equal heads it returns `(0,0)` followed by the result for the two tails
with both indices increased by 1; for different heads, with `lcsLen` the
length of a longest common subsequence, it returns the result for the old
tail with the old indices increased by 1 when `lcsLen (old tail, new) ≥
lcsLen (old, new tail)`, ties included, and else the result for the new tail
with the new indices increased by 1.  For `ab` and `ba` the result is
`[(1,0)]`, not `[(0,1)]`. -/
theorem lcs_backtrack_refines (A B : List Char) (hA : A.length < INT_MAX)
    (hB : B.length < INT_MAX) :
    lcs_backtrack A B = some (align A B) ∧
    lcs_backtrack [] B = some [] ∧ lcs_backtrack A [] = some [] ∧
    (∀ (x : Char) (xs ys : List Char),
      (x :: xs).length < INT_MAX → (x :: ys).length < INT_MAX →
      lcs_backtrack (x :: xs) (x :: ys)
        = (lcs_backtrack xs ys).map
            (fun r => (0, 0) :: r.map (fun p => (p.1 + 1, p.2 + 1)))) ∧
    (∀ (x y : Char) (xs ys : List Char),
      (x :: xs).length < INT_MAX → (y :: ys).length < INT_MAX → x ≠ y →
      lcsLen xs (y :: ys) ≥ lcsLen (x :: xs) ys →
      lcs_backtrack (x :: xs) (y :: ys)
        = (lcs_backtrack xs (y :: ys)).map (fun r => r.map (fun p => (p.1 + 1, p.2)))) ∧
    (∀ (x y : Char) (xs ys : List Char),
      (x :: xs).length < INT_MAX → (y :: ys).length < INT_MAX → x ≠ y →
      lcsLen xs (y :: ys) < lcsLen (x :: xs) ys →
      lcs_backtrack (x :: xs) (y :: ys)
        = (lcs_backtrack (x :: xs) ys).map (fun r => r.map (fun p => (p.1, p.2 + 1)))) ∧
    (∀ xs ys : List Char,
      (∃ s, List.Sublist s xs ∧ List.Sublist s ys ∧ s.length = lcsLen xs ys) ∧
      ∀ s, List.Sublist s xs → List.Sublist s ys → s.length ≤ lcsLen xs ys) ∧
    lcs_backtrack "ab".data "ba".data = some [(1, 0)] ∧
    lcs_backtrack "ab".data "ba".data ≠ some [(0, 1)] := by
  have h0 : ([] : List Char).length < INT_MAX := by decide
  have tl : ∀ (x : Char) (xs : List Char), (x :: xs).length < INT_MAX →
      xs.length < INT_MAX := by
    intro x xs h
    simp only [List.length_cons] at h
    omega
  refine ⟨lcs_backtrack_eq_align A B hA hB, ?_, ?_, ?_, ?_, ?_, ?_, by decide, by decide⟩
  · rw [lcs_backtrack_eq_align [] B h0 hB, align_nil_left]
  · rw [lcs_backtrack_eq_align A [] hA h0, align_nil_right]
  · intro x xs ys h1 h2
    rw [lcs_backtrack_eq_align _ _ h1 h2, lcs_backtrack_eq_align _ _ (tl x xs h1) (tl x ys h2),
      align_cons_cons, if_pos rfl]
    rfl
  · intro x y xs ys h1 h2 hxy hge
    rw [lcs_backtrack_eq_align _ _ h1 h2, lcs_backtrack_eq_align _ _ (tl x xs h1) h2,
      align_cons_cons, if_neg hxy, if_pos hge]
    rfl
  · intro x y xs ys h1 h2 hxy hlt
    rw [lcs_backtrack_eq_align _ _ h1 h2, lcs_backtrack_eq_align _ _ h1 (tl y ys h2),
      align_cons_cons, if_neg hxy, if_neg (Nat.not_le.mpr hlt)]
    rfl
  · intro xs ys
    exact ⟨lcsLen_attained xs ys, lcsLen_optimal xs ys⟩

/-- The amended C17 at the lines `ab` and `ba`. -/
theorem lcs_backtrack_refines_witness :
    lcs_backtrack "ab".data "ba".data = some (align "ab".data "ba".data) ∧
    lcs_backtrack [] "ba".data = some [] ∧ lcs_backtrack "ab".data [] = some [] ∧
    (∀ (x : Char) (xs ys : List Char),
      (x :: xs).length < INT_MAX → (x :: ys).length < INT_MAX →
      lcs_backtrack (x :: xs) (x :: ys)
        = (lcs_backtrack xs ys).map
            (fun r => (0, 0) :: r.map (fun p => (p.1 + 1, p.2 + 1)))) ∧
    (∀ (x y : Char) (xs ys : List Char),
      (x :: xs).length < INT_MAX → (y :: ys).length < INT_MAX → x ≠ y →
      lcsLen xs (y :: ys) ≥ lcsLen (x :: xs) ys →
      lcs_backtrack (x :: xs) (y :: ys)
        = (lcs_backtrack xs (y :: ys)).map (fun r => r.map (fun p => (p.1 + 1, p.2)))) ∧
    (∀ (x y : Char) (xs ys : List Char),
      (x :: xs).length < INT_MAX → (y :: ys).length < INT_MAX → x ≠ y →
      lcsLen xs (y :: ys) < lcsLen (x :: xs) ys →
      lcs_backtrack (x :: xs) (y :: ys)
        = (lcs_backtrack (x :: xs) ys).map (fun r => r.map (fun p => (p.1, p.2 + 1)))) ∧
    (∀ xs ys : List Char,
      (∃ s, List.Sublist s xs ∧ List.Sublist s ys ∧ s.length = lcsLen xs ys) ∧
      ∀ s, List.Sublist s xs → List.Sublist s ys → s.length ≤ lcsLen xs ys) ∧
    lcs_backtrack "ab".data "ba".data = some [(1, 0)] ∧
    lcs_backtrack "ab".data "ba".data ≠ some [(0, 1)] :=
  lcs_backtrack_refines "ab".data "ba".data (by decide) (by decide)

/-! ## Plain and marked parts of a segment sequence -/

theorem marked_count_add_plain (segs : List Seg) :
    marked_count segs + (plain_text segs).length = (seg_texts segs).length := by
  induction segs with
  | nil => rfl
  | cons s segs ih =>
    unfold marked_count plain_text seg_texts at ih ⊢
    by_cases hm : s.marked = true
    · simp only [List.filter_cons, hm, if_true, Bool.not_true, Bool.false_eq_true, if_false,
        List.map_cons, List.sum_cons, List.flatMap_cons, List.length_append]
      omega
    · simp only [Bool.not_eq_true] at hm
      simp only [List.filter_cons, hm, Bool.false_eq_true, if_false, Bool.not_false, if_true,
        List.flatMap_cons, List.length_append]
      omega

theorem plain_text_sublist (segs : List Seg) :
    List.Sublist (plain_text segs) (seg_texts segs) := by
  induction segs with
  | nil => exact List.Sublist.refl _
  | cons s segs ih =>
    unfold plain_text seg_texts at ih ⊢
    by_cases hm : s.marked = true
    · simp only [List.filter_cons, hm, Bool.not_true, Bool.false_eq_true, if_false,
        List.flatMap_cons]
      exact ih.trans (List.sublist_append_right _ _)
    · simp only [Bool.not_eq_true] at hm
      simp only [List.filter_cons, hm, Bool.not_false, if_true, List.flatMap_cons]
      exact List.Sublist.append (List.Sublist.refl _) ih

theorem plain_text_segments (ln : List Char) : ∀ (idxs : List Nat) (pos : Nat),
    plain_text (segments ln idxs pos) = idxs.filterMap (fun k => ln[k]?) := by
  intro idxs
  induction idxs with
  | nil =>
    intro pos
    simp only [segments]
    split_ifs <;> rfl
  | cons k ks ih =>
    intro pos
    have ih2 := ih (k + 1)
    unfold plain_text at ih2 ⊢
    simp only [segments]
    have e : ∀ l : List Seg,
        ((if pos < k then [(⟨true, (ln.drop pos).take (k - pos)⟩ : Seg)] else []) ++ l).filter
          (fun s => !s.marked) = l.filter (fun s => !s.marked) := by
      intro l
      split_ifs <;> simp
    rw [e]
    simp only [List.filter_cons, Bool.not_false, if_true, List.flatMap_cons, ih2,
      List.filterMap_cons]
    cases ln[k]? <;> rfl

theorem plain_output_eq (tag : List Char) (segs : List Seg) :
    plain_output tag segs = html_escape (plain_text segs) := by
  induction segs with
  | nil => rfl
  | cons s segs ih =>
    unfold plain_output plain_text at ih ⊢
    by_cases hm : s.marked = true
    · simp only [List.filter_cons, hm, Bool.not_true, Bool.false_eq_true, if_false]
      exact ih
    · simp only [Bool.not_eq_true] at hm
      simp only [List.filter_cons, hm, Bool.not_false, if_true, List.flatMap_cons,
        html_escape_append, ih, Seg.render, Bool.false_eq_true, if_false]

theorem plain_text_old (A B : List Char) :
    plain_text (segments A ((align A B).map Prod.fst) 0) = matched_old A (align A B) := by
  rw [plain_text_segments, List.filterMap_map]
  rfl

theorem plain_text_new (A B : List Char) :
    plain_text (segments B ((align A B).map Prod.snd) 0) = matched_old A (align A B) := by
  rw [plain_text_segments, List.filterMap_map, ← matched_new_eq_old]
  rfl

theorem marked_count_eq_zero (segs : List Seg) (h : ¬ ∃ s ∈ segs, s.marked = true) :
    marked_count segs = 0 := by
  unfold marked_count
  have : segs.filter (fun s => s.marked) = [] := by
    rw [List.filter_eq_nil_iff]
    intro s hs hm
    exact h ⟨s, hs, hm⟩
  rw [this]
  rfl

theorem marked_count_old (A B : List Char) (hA : A.length < INT_MAX) :
    marked_count (segments A ((align A B).map Prod.fst) 0) = A.length - lcsLen A B := by
  have h1 := marked_count_add_plain (segments A ((align A B).map Prod.fst) 0)
  rw [plain_text_old, length_matched_old, length_align _ A B (le_refl _),
    seg_texts_segments A hA _ 0 (align_fst_spec A B).1 (align_fst_spec A B).2 (Nat.zero_le _),
    List.drop_zero] at h1
  omega

theorem marked_count_new (A B : List Char) (hB : B.length < INT_MAX) :
    marked_count (segments B ((align A B).map Prod.snd) 0) = B.length - lcsLen A B := by
  have h1 := marked_count_add_plain (segments B ((align A B).map Prod.snd) 0)
  rw [plain_text_new, length_matched_old, length_align _ A B (le_refl _),
    seg_texts_segments B hB _ 0 (align_snd_spec A B).1 (align_snd_spec A B).2 (Nat.zero_le _),
    List.drop_zero] at h1
  omega

theorem eq_of_lcsLen_eq_length (A B : List Char) (hA : lcsLen A B = A.length)
    (hB : lcsLen A B = B.length) : A = B := by
  have h1 := matched_old_align _ A B (le_refl _)
  have h2 := matched_new_align _ A B (le_refl _)
  rw [matched_new_eq_old] at h2
  have hl : (matched_old A (align A B)).length = lcsLen A B := by
    rw [length_matched_old, length_align _ A B (le_refl _)]
  have e1 := h1.eq_of_length (by rw [hl, hA])
  have e2 := h2.eq_of_length (by rw [hl, hB])
  rw [← e1, e2]

/-- C18, as stated, fails for a line of `INT_MAX` characters: the renderers
return nothing, so no character of the line is inside a marked run of a
rendering, though the line differs from the other in all its characters. -/
theorem highlighting_absent_at_int_max :
    (List.replicate INT_MAX 'a').length = INT_MAX ∧
    old_segments (List.replicate INT_MAX 'a') [] = none ∧
    render_old_with_deletions (List.replicate INT_MAX 'a') [] = none ∧
    new_segments [] (List.replicate INT_MAX 'a') = none ∧
    render_new_with_insertions [] (List.replicate INT_MAX 'a') = none :=
  ⟨length_long_line, (segments_of_length _ _ (Or.inl length_long_line)).1,
    (render_of_length _ _ (Or.inl length_long_line)).1,
    (segments_of_length _ _ (Or.inr length_long_line)).2,
    (render_of_length _ _ (Or.inr length_long_line)).2⟩

/-- C18, amended: for lines shorter than `INT_MAX`, with `lcsLen A B` the length of a longest common subsequence, the
deletion runs of the old-side rendering hold `|A| - lcsLen A B` characters
and the insertion runs of the new-side rendering hold `|B| - lcsLen A B`;
no sequence of segments that covers `A` (or `B`) and whose plain text is a
subsequence of the other line marks fewer characters; and when `A ≠ B` one
of the two renderings has a marked run. -/
theorem highlighting_minimal (A B : List Char) (hA : A.length < INT_MAX)
    (hB : B.length < INT_MAX) :
    ∃ so sn, old_segments A B = some so ∧ new_segments A B = some sn ∧
      render_old_with_deletions A B = some (render_segs del_open so) ∧
      render_new_with_insertions A B = some (render_segs ins_open sn) ∧
      marked_count so = A.length - lcsLen A B ∧
      marked_count sn = B.length - lcsLen A B ∧
      ((∃ s, List.Sublist s A ∧ List.Sublist s B ∧ s.length = lcsLen A B) ∧
        ∀ s, List.Sublist s A → List.Sublist s B → s.length ≤ lcsLen A B) ∧
      (∀ segs, seg_texts segs = A → List.Sublist (plain_text segs) B →
        marked_count so ≤ marked_count segs) ∧
      (∀ segs, seg_texts segs = B → List.Sublist (plain_text segs) A →
        marked_count sn ≤ marked_count segs) ∧
      (A ≠ B → (∃ s ∈ so, s.marked = true) ∨ (∃ s ∈ sn, s.marked = true)) := by
  refine ⟨_, _, old_segments_eq A B hA hB, new_segments_eq A B hA hB, render_old_eq_segments A B hA hB,
    render_new_eq_segments A B hA hB, marked_count_old A B hA, marked_count_new A B hB,
    ⟨lcsLen_attained A B, lcsLen_optimal A B⟩, ?_, ?_, ?_⟩
  · intro segs h1 h2
    have h3 := marked_count_add_plain segs
    have h4 := plain_text_sublist segs
    rw [h1] at h3 h4
    have h5 := lcsLen_optimal A B _ h4 h2
    rw [marked_count_old A B hA]
    omega
  · intro segs h1 h2
    have h3 := marked_count_add_plain segs
    have h4 := plain_text_sublist segs
    rw [h1] at h3 h4
    have h5 := lcsLen_optimal A B _ h2 h4
    rw [marked_count_new A B hB]
    omega
  · intro hne
    by_contra hc
    rw [not_or] at hc
    have h1 := marked_count_eq_zero _ hc.1
    have h2 := marked_count_eq_zero _ hc.2
    rw [marked_count_old A B hA] at h1
    rw [marked_count_new A B hB] at h2
    have h3 := lcsLen_le_left A B
    have h4 := lcsLen_le_right A B
    exact hne (eq_of_lcsLen_eq_length A B (by omega) (by omega))

/-- The amended C18 at the lines `cat` and `cot`. -/
theorem highlighting_minimal_witness :
    ∃ so sn, old_segments "cat".data "cot".data = some so ∧ new_segments "cat".data "cot".data = some sn ∧
      render_old_with_deletions "cat".data "cot".data = some (render_segs del_open so) ∧
      render_new_with_insertions "cat".data "cot".data = some (render_segs ins_open sn) ∧
      marked_count so = "cat".data.length - lcsLen "cat".data "cot".data ∧
      marked_count sn = "cot".data.length - lcsLen "cat".data "cot".data ∧
      ((∃ s, List.Sublist s "cat".data ∧ List.Sublist s "cot".data ∧ s.length = lcsLen "cat".data "cot".data) ∧
        ∀ s, List.Sublist s "cat".data → List.Sublist s "cot".data → s.length ≤ lcsLen "cat".data "cot".data) ∧
      (∀ segs, seg_texts segs = "cat".data → List.Sublist (plain_text segs) "cot".data →
        marked_count so ≤ marked_count segs) ∧
      (∀ segs, seg_texts segs = "cot".data → List.Sublist (plain_text segs) "cat".data →
        marked_count sn ≤ marked_count segs) ∧
      ("cat".data ≠ "cot".data → (∃ s ∈ so, s.marked = true) ∨ (∃ s ∈ sn, s.marked = true)) :=
  highlighting_minimal "cat".data "cot".data (by decide) (by decide)

/-- C19, as stated, fails for a new line of `INT_MAX` characters: neither
the match list nor a rendering is returned, so the two sides have no plain
segments to agree on. -/
theorem plain_parts_absent_at_int_max :
    (List.replicate INT_MAX 'a').length = INT_MAX ∧
    lcs_backtrack ['a', 'b'] (List.replicate INT_MAX 'a') = none ∧
    old_segments ['a', 'b'] (List.replicate INT_MAX 'a') = none ∧
    new_segments ['a', 'b'] (List.replicate INT_MAX 'a') = none ∧
    render_old_with_deletions ['a', 'b'] (List.replicate INT_MAX 'a') = none ∧
    render_new_with_insertions ['a', 'b'] (List.replicate INT_MAX 'a') = none :=
  ⟨length_long_line, lcs_backtrack_of_length _ _ (Or.inr length_long_line),
    (segments_of_length _ _ (Or.inr length_long_line)).1,
    (segments_of_length _ _ (Or.inr length_long_line)).2,
    (render_of_length _ _ (Or.inr length_long_line)).1,
    (render_of_length _ _ (Or.inr length_long_line)).2⟩

/-- C19, amended: for lines shorter than `INT_MAX`, the plain segments of the
two renderings carry the same text, the
common subsequence `A[i_1] ... A[i_k]` that `lcs_backtrack` selects (which is
also `B[j_1] ... B[j_k]`); their output is `html_escape` of it on both sides;
and both renderings have `k` plain characters, `k` the number of matches. -/
theorem plain_parts_agree (A B : List Char) (hA : A.length < INT_MAX)
    (hB : B.length < INT_MAX) :
    ∃ r so sn, lcs_backtrack A B = some r ∧
      old_segments A B = some so ∧ new_segments A B = some sn ∧
      render_old_with_deletions A B = some (render_segs del_open so) ∧
      render_new_with_insertions A B = some (render_segs ins_open sn) ∧
      plain_text so = matched_old A r ∧ plain_text sn = matched_old A r ∧
      matched_new B r = matched_old A r ∧
      plain_output del_open so = plain_output ins_open sn ∧
      plain_output del_open so = html_escape (matched_old A r) ∧
      plain_output ins_open sn = html_escape (matched_old A r) ∧
      (plain_text so).length = r.length ∧ (plain_text sn).length = r.length := by
  refine ⟨_, _, _, lcs_backtrack_eq_align A B hA hB, old_segments_eq A B hA hB, new_segments_eq A B hA hB,
    render_old_eq_segments A B hA hB, render_new_eq_segments A B hA hB, plain_text_old A B,
    plain_text_new A B, matched_new_eq_old A B, ?_, ?_, ?_, ?_, ?_⟩
  · rw [plain_output_eq, plain_output_eq, plain_text_old, plain_text_new]
  · rw [plain_output_eq, plain_text_old]
  · rw [plain_output_eq, plain_text_new]
  · rw [plain_text_old, length_matched_old]
  · rw [plain_text_new, length_matched_old]

/-- The amended C19 at the lines `cat` and `cot`. -/
theorem plain_parts_agree_witness :
    ∃ r so sn, lcs_backtrack "cat".data "cot".data = some r ∧
      old_segments "cat".data "cot".data = some so ∧ new_segments "cat".data "cot".data = some sn ∧
      render_old_with_deletions "cat".data "cot".data = some (render_segs del_open so) ∧
      render_new_with_insertions "cat".data "cot".data = some (render_segs ins_open sn) ∧
      plain_text so = matched_old "cat".data r ∧ plain_text sn = matched_old "cat".data r ∧
      matched_new "cot".data r = matched_old "cat".data r ∧
      plain_output del_open so = plain_output ins_open sn ∧
      plain_output del_open so = html_escape (matched_old "cat".data r) ∧
      plain_output ins_open sn = html_escape (matched_old "cat".data r) ∧
      (plain_text so).length = r.length ∧ (plain_text sn).length = r.length :=
  plain_parts_agree "cat".data "cot".data (by decide) (by decide)

/-! ## The escaper is injective -/

theorem escape_char_cases_id (c : Char) :
    (c = '&' ∧ escape_char c = ['&', 'a', 'm', 'p', ';']) ∨
    (c = '<' ∧ escape_char c = ['&', 'l', 't', ';']) ∨
    (c = '>' ∧ escape_char c = ['&', 'g', 't', ';']) ∨
    (c = '"' ∧ escape_char c = ['&', 'q', 'u', 'o', 't', ';']) ∨
    (c ≠ '&' ∧ escape_char c = [c]) := by
  by_cases h1 : c = '&'
  · subst h1; exact Or.inl ⟨rfl, by decide⟩
  by_cases h2 : c = '<'
  · subst h2; exact Or.inr (Or.inl ⟨rfl, by decide⟩)
  by_cases h3 : c = '>'
  · subst h3; exact Or.inr (Or.inr (Or.inl ⟨rfl, by decide⟩))
  by_cases h4 : c = '"'
  · subst h4; exact Or.inr (Or.inr (Or.inr (Or.inl ⟨rfl, by decide⟩)))
  exact Or.inr (Or.inr (Or.inr (Or.inr ⟨h1, escape_char_of_safe c h1 h2 h3 h4⟩)))

theorem escape_char_append_inj (c d : Char) (u v : List Char)
    (h : escape_char c ++ u = escape_char d ++ v) : c = d ∧ u = v := by
  rcases escape_char_cases_id c with ⟨hc, ec⟩ | ⟨hc, ec⟩ | ⟨hc, ec⟩ | ⟨hc, ec⟩ | ⟨hc, ec⟩ <;>
    rcases escape_char_cases_id d with ⟨hd, ed⟩ | ⟨hd, ed⟩ | ⟨hd, ed⟩ | ⟨hd, ed⟩ | ⟨hd, ed⟩ <;>
    rw [ec, ed] at h <;> simp at h <;>
    first
      | exact absurd h.1.symm hd
      | exact absurd h.1 hc
      | simp_all

theorem html_escape_inj : ∀ s t : List Char, html_escape s = html_escape t → s = t := by
  intro s
  induction s with
  | nil =>
    intro t h
    rcases t with _ | ⟨d, t⟩
    · rfl
    · rw [html_escape_nil, html_escape_cons] at h
      have := congrArg List.length h
      have := escape_char_length_pos d
      simp only [List.length_nil, List.length_append] at *
      omega
  | cons c s ih =>
    intro t h
    rcases t with _ | ⟨d, t⟩
    · rw [html_escape_nil, html_escape_cons] at h
      have := congrArg List.length h
      have := escape_char_length_pos c
      simp only [List.length_nil, List.length_append] at *
      omega
    · rw [html_escape_cons, html_escape_cons] at h
      obtain ⟨h1, h2⟩ := escape_char_append_inj c d _ _ h
      rw [h1, ih t h2]

/-- C20: `html_escape` is injective, so the line can be recovered from a
rendering: for lines shorter than `INT_MAX`, two old-side renderings that
are equal are renderings of the same old line, and two new-side renderings
that are equal are renderings of the same new line. -/
theorem html_escape_injective :
    (∀ s t : List Char, html_escape s = html_escape t → s = t) ∧
    (∀ A B A2 B2 : List Char, A.length < INT_MAX → B.length < INT_MAX →
      A2.length < INT_MAX → B2.length < INT_MAX →
      render_old_with_deletions A B = render_old_with_deletions A2 B2 → A = A2) ∧
    (∀ A B A2 B2 : List Char, A.length < INT_MAX → B.length < INT_MAX →
      A2.length < INT_MAX → B2.length < INT_MAX →
      render_new_with_insertions A B = render_new_with_insertions A2 B2 → B = B2) := by
  refine ⟨html_escape_inj, ?_, ?_⟩
  · intro A B A2 B2 hA hB hA2 hB2 h
    rw [render_old_eq_segments A B hA hB, render_old_eq_segments A2 B2 hA2 hB2,
      Option.some.injEq] at h
    have h1 := congrArg (strip_markers old_markers 0) h
    rw [strip_markers_render_segs old_markers (Or.inl rfl) del_open (by simp [old_markers]),
      strip_markers_render_segs old_markers (Or.inl rfl) del_open (by simp [old_markers]),
      seg_texts_segments A hA _ 0 (align_fst_spec A B).1 (align_fst_spec A B).2 (Nat.zero_le _),
      seg_texts_segments A2 hA2 _ 0 (align_fst_spec A2 B2).1 (align_fst_spec A2 B2).2
        (Nat.zero_le _)] at h1
    exact html_escape_inj _ _ h1
  · intro A B A2 B2 hA hB hA2 hB2 h
    rw [render_new_eq_segments A B hA hB, render_new_eq_segments A2 B2 hA2 hB2,
      Option.some.injEq] at h
    have h1 := congrArg (strip_markers new_markers 0) h
    rw [strip_markers_render_segs new_markers (Or.inr rfl) ins_open (by simp [new_markers]),
      strip_markers_render_segs new_markers (Or.inr rfl) ins_open (by simp [new_markers]),
      seg_texts_segments B hB _ 0 (align_snd_spec A B).1 (align_snd_spec A B).2 (Nat.zero_le _),
      seg_texts_segments B2 hB2 _ 0 (align_snd_spec A2 B2).1 (align_snd_spec A2 B2).2
        (Nat.zero_le _)] at h1
    exact html_escape_inj _ _ h1

end DiffToHtml
